import Mathlib

/-!
Formal model of the belb span-aware preprocessing engine
(`belb/preprocessing/{data,transform,clean,segment,qaqc}.py`).

Annotations carry half-open character spans `[start, stop)` into passage
text (the Python field `end` is called `stop` here, `end` being a Lean
keyword, and the Python class `Annotation` is called `Ann`).  Texts are
`List Char`; machine integers are `Nat` (all offsets in the source are
non-negative; where Python subtraction could go negative the theorems
carry the containment hypotheses `passage.offset ≤ a.start ≤ a.stop ≤
passage.offset + passage.text.length`, which is the Passage invariant of
the data model).  Fallible code returns `Except String _` (a Python
`raise RuntimeError` is `Except.error`).
-/

namespace Belb

/-- Python `Annotation.identifiers : Optional[Union[str, list]]` — either a
plain string or a list of identifier strings. -/
inductive IdVal where
  | strId : String → IdVal
  | listId : List String → IdVal
deriving DecidableEq, Repr

/-- `IDENTIFIERS_CONNECTOR`-joined rendering, `Annotation.pack_identifiers`. -/
def pack_identifiers (l : List String) : String :=
  String.intercalate ";" l

/-- Snapshot of the `identifiers` entry of `Annotation.original`: at
construction it is a copy of the live value; after a grouped-annotation
merge it is the list of the constituents' snapshots
(`Example.group_annotations_by_span`). -/
inductive OrigIds where
  | snap : IdVal → OrigIds
  | grouped : List OrigIds → OrigIds

/-- Snapshot of the `entity_type` entry of `Annotation.original`. -/
inductive OrigType where
  | snap : String → OrigType
  | grouped : List OrigType → OrigType

mutual

def OrigIds.decEqAux : (a b : OrigIds) → Decidable (a = b)
  | .snap x, .snap y =>
      match decEq x y with
      | isTrue h => isTrue (by rw [h])
      | isFalse h => isFalse (by intro hh; cases hh; exact h rfl)
  | .snap _, .grouped _ => isFalse (by intro h; cases h)
  | .grouped _, .snap _ => isFalse (by intro h; cases h)
  | .grouped l, .grouped m =>
      match OrigIds.decEqListAux l m with
      | isTrue h => isTrue (by rw [h])
      | isFalse h => isFalse (by intro hh; cases hh; exact h rfl)

def OrigIds.decEqListAux : (l m : List OrigIds) → Decidable (l = m)
  | [], [] => isTrue rfl
  | [], _ :: _ => isFalse (by intro h; cases h)
  | _ :: _, [] => isFalse (by intro h; cases h)
  | a :: l, b :: m =>
      match OrigIds.decEqAux a b, OrigIds.decEqListAux l m with
      | isTrue h1, isTrue h2 => isTrue (by rw [h1, h2])
      | isFalse h1, _ => isFalse (by intro hh; cases hh; exact h1 rfl)
      | _, isFalse h2 => isFalse (by intro hh; cases hh; exact h2 rfl)

end

mutual

def OrigType.decEqAux : (a b : OrigType) → Decidable (a = b)
  | .snap x, .snap y =>
      match decEq x y with
      | isTrue h => isTrue (by rw [h])
      | isFalse h => isFalse (by intro hh; cases hh; exact h rfl)
  | .snap _, .grouped _ => isFalse (by intro h; cases h)
  | .grouped _, .snap _ => isFalse (by intro h; cases h)
  | .grouped l, .grouped m =>
      match OrigType.decEqListAux l m with
      | isTrue h => isTrue (by rw [h])
      | isFalse h => isFalse (by intro hh; cases hh; exact h rfl)

def OrigType.decEqListAux : (l m : List OrigType) → Decidable (l = m)
  | [], [] => isTrue rfl
  | [], _ :: _ => isFalse (by intro h; cases h)
  | _ :: _, [] => isFalse (by intro h; cases h)
  | a :: l, b :: m =>
      match OrigType.decEqAux a b, OrigType.decEqListAux l m with
      | isTrue h1, isTrue h2 => isTrue (by rw [h1, h2])
      | isFalse h1, _ => isFalse (by intro hh; cases hh; exact h1 rfl)
      | _, isFalse h2 => isFalse (by intro hh; cases hh; exact h2 rfl)

end

instance : DecidableEq OrigIds := OrigIds.decEqAux

instance : DecidableEq OrigType := OrigType.decEqAux

/-- The `Annotation.original` dict: the identifying fields copied at
construction time (`location` is omitted — no claim touches it). -/
structure Orig where
  start : Nat
  stop : Nat
  text : List Char
  entity_type : OrigType
  identifiers : OrigIds
deriving DecidableEq

/-- Python class `Annotation` (dataclass in `preprocessing/data.py`). -/
structure Ann where
  start : Nat
  stop : Nat
  text : List Char
  entity_type : String
  identifiers : IdVal
  foreign : Bool := false
  id : Nat := 0
  original : Orig
deriving DecidableEq

/-- `Annotation.__post_init__`: the `original` snapshot is built from the
fields as given; a foreign annotation has its identifiers forced to `NA`. -/
def mkAnn (start stop : Nat) (text : List Char) (entity_type : String)
    (identifiers : IdVal) (foreign : Bool) (id : Nat) : Ann :=
  { start := start, stop := stop, text := text, entity_type := entity_type,
    identifiers := if foreign then .strId "-" else identifiers,
    foreign := foreign, id := id,
    original := { start := start, stop := stop, text := text,
                  entity_type := .snap entity_type,
                  identifiers := .snap identifiers } }

/-- `Annotation.nested`: `self.start >= other.start and self.end <= other.end`. -/
def Ann.nested (a other : Ann) : Bool :=
  decide (other.start ≤ a.start ∧ a.stop ≤ other.stop)

/-- `Annotation.overlaps`:
`(self.start <= other.start < self.end) or (self.start < other.end <= self.end)`. -/
def Ann.overlaps (a other : Ann) : Bool :=
  decide ((a.start ≤ other.start ∧ other.start < a.stop) ∨
          (a.start < other.stop ∧ other.stop ≤ a.stop))

/-- `Annotation.to_tuple(identifiers=True)`:
`(start, end, text, entity_type, packed identifiers)`. -/
def Ann.to_tuple (a : Ann) : Nat × Nat × List Char × String × String :=
  (a.start, a.stop, a.text, a.entity_type,
   match a.identifiers with
   | .strId s => s
   | .listId l => pack_identifiers l)

/-- `Annotation.to_tuple(identifiers=False)`: `(start, end, text, entity_type)`. -/
def Ann.to_key (a : Ann) : Nat × Nat × List Char × String :=
  (a.start, a.stop, a.text, a.entity_type)

/-- Python class `Passage` (dataclass in `preprocessing/data.py`). -/
structure Passage where
  id : Nat
  offset : Nat
  text : List Char
  annotations : List Ann
  type : String
deriving DecidableEq

/-- Python class `Example` (dataclass in `preprocessing/data.py`);
`prepared` / mutation flags are not modelled (no claim reads them). -/
structure Example where
  id : String
  passages : List Passage
  identifiers : Option (List String) := none
deriving DecidableEq

/-- `Example.is_empty`: no passages, or no non-foreign annotation anywhere. -/
def Example.is_empty (e : Example) : Bool :=
  e.passages.isEmpty ||
    e.passages.all (fun p => (p.annotations.filter (fun a => !a.foreign)).isEmpty)

/-! ### `BaseTransformation.handle_error` (transform.py) -/

/-- `BaseTransformation.handle_error`: with `allow_drop` return an empty
`Example` with the same id, otherwise raise `RuntimeError(msg)`. -/
def handle_error (allow_drop : Bool) (eid : String) (msg : String) :
    Except String Example :=
  if allow_drop then .ok { id := eid, passages := [] } else .error msg

/-! ### Intra-word-mention predicates (clean.py).

Python indexes `passage.text[start - 1]` / `passage.text[end]`; the model
totalizes the read with `getD` (default a blank, which is not
alphanumeric); the C10 theorem shows the read is in bounds whenever the
annotation lies inside the passage. -/

/-- `is_iwm_start`: the mention is directly attached to the previous word. -/
def is_iwm_start (a : Ann) (p : Passage) : Bool :=
  let start := a.start - p.offset
  if start = 0 then false
  else (p.text.getD (start - 1) ' ').isAlphanum

/-- `is_iwm_end`: the mention is directly attached to the next word. -/
def is_iwm_end (a : Ann) (p : Passage) : Bool :=
  let stop := a.stop - p.offset
  if stop = p.text.length then false
  else (p.text.getD stop ' ').isAlphanum

/-- `is_iwm`: the annotation is an intra-word mention. -/
def is_iwm (a : Ann) (p : Passage) : Bool :=
  is_iwm_start a p || is_iwm_end a p

/-- `has_intra_word_mentions`. -/
def has_intra_word_mentions (p : Passage) : Bool :=
  p.annotations.any (fun a => is_iwm a p)

end Belb

namespace Belb

/-! ## C9: `nested`/`overlaps` disjunction is span intersection -/

/-- The two spans of `a` and `b` intersect (half-open semantics). -/
def spansIntersect (a b : Ann) : Prop :=
  a.start < b.stop ∧ b.start < a.stop

theorem nested_or_overlaps_iff_aux {a b : Ann}
    (ha : a.start < a.stop) (hb : b.start < b.stop) :
    (a.nested b || a.overlaps b) = true ↔ spansIntersect a b := by
  simp only [Ann.nested, Ann.overlaps, spansIntersect, Bool.or_eq_true,
    decide_eq_true_eq]
  omega

/-- C9.  For annotations with non-empty spans, `a.nested(b) or a.overlaps(b)`
holds iff the half-open spans intersect (`a.start < b.end ∧ b.start < a.end`);
in particular the disjunction is symmetric in `a` and `b`. -/
theorem nested_or_overlaps_characterization (a b : Ann)
    (ha : a.start < a.stop) (hb : b.start < b.stop) :
    ((a.nested b || a.overlaps b) = true ↔ a.start < b.stop ∧ b.start < a.stop) ∧
    (a.nested b || a.overlaps b) = (b.nested a || b.overlaps a) := by
  refine ⟨nested_or_overlaps_iff_aux ha hb, ?_⟩
  rw [Bool.eq_iff_iff]
  simp only [Ann.nested, Ann.overlaps, Bool.or_eq_true, decide_eq_true_eq]
  omega

/-- C9 witness: concrete overlapping pair. -/
theorem nested_or_overlaps_characterization_witness :
    let a := mkAnn 0 2 ['a', 'b'] "gene" (.strId "1") false 0
    let b := mkAnn 1 3 ['b', 'c'] "gene" (.strId "2") false 1
    ((a.nested b || a.overlaps b) = true ↔ a.start < b.stop ∧ b.start < a.stop) ∧
    (a.nested b || a.overlaps b) = (b.nested a || b.overlaps a) :=
  nested_or_overlaps_characterization _ _ (by decide) (by decide)

/-! ## C10: boundary behaviour of the intra-word-mention predicates -/

/-- C10.  An annotation starting at the beginning of the passage text is
never an iwm-start, one ending at the end of the passage text is never an
iwm-end; an annotation covering the whole passage text is never an
intra-word mention; and for an annotation contained in the passage the
indices read by `is_iwm_start` / `is_iwm_end` are in bounds. -/
theorem is_iwm_boundary (a : Ann) (p : Passage)
    (hlo : p.offset ≤ a.start) (hmid : a.start ≤ a.stop)
    (hhi : a.stop ≤ p.offset + p.text.length) :
    (a.start = p.offset → is_iwm_start a p = false) ∧
    (a.stop = p.offset + p.text.length → is_iwm_end a p = false) ∧
    (a.start = p.offset ∧ a.stop = p.offset + p.text.length →
      is_iwm a p = false) ∧
    (a.start ≠ p.offset → a.start - p.offset - 1 < p.text.length) ∧
    (a.stop - p.offset ≠ p.text.length → a.stop - p.offset < p.text.length) := by
  refine ⟨?_, ?_, ?_, ?_, ?_⟩
  · intro h
    simp [is_iwm_start, h]
  · intro h
    simp only [is_iwm_end]
    have : a.stop - p.offset = p.text.length := by omega
    simp [this]
  · rintro ⟨h1, h2⟩
    have hs : is_iwm_start a p = false := by simp [is_iwm_start, h1]
    have he : is_iwm_end a p = false := by
      simp only [is_iwm_end]
      have : a.stop - p.offset = p.text.length := by omega
      simp [this]
    simp [is_iwm, hs, he]
  · intro h
    omega
  · intro h
    omega

/-- C10 witness: an annotation covering the full passage text. -/
theorem is_iwm_boundary_witness :
    let a := mkAnn 10 13 ['c', 'a', 't'] "gene" (.strId "1") false 0
    let p : Passage := { id := 0, offset := 10, text := ['c', 'a', 't'],
                         annotations := [], type := "title" }
    (a.start = p.offset → is_iwm_start a p = false) ∧
    (a.stop = p.offset + p.text.length → is_iwm_end a p = false) ∧
    (a.start = p.offset ∧ a.stop = p.offset + p.text.length →
      is_iwm a p = false) ∧
    (a.start ≠ p.offset → a.start - p.offset - 1 < p.text.length) ∧
    (a.stop - p.offset ≠ p.text.length → a.stop - p.offset < p.text.length) :=
  is_iwm_boundary _ _ (by decide) (by decide) (by decide)

/-! ## C6: `test_offsets` (qaqc.py) -/

/-- Python slice `l[i:j]`: negative indices count from the end, then both
bounds are clamped to `[0, len l]`. -/
def pySlice (l : List Char) (i j : Int) : List Char :=
  let n : Int := l.length
  let s := if i < 0 then max (i + n) 0 else min i n
  let e := if j < 0 then max (j + n) 0 else min j n
  (l.take e.toNat).drop s.toNat

/-- Comparison used by Python `sorted(annotations, key=lambda x: x.start)`. -/
def startLe : Ann → Ann → Prop := fun a b => a.start ≤ b.start

instance : DecidableRel startLe := fun a b => Nat.decLe a.start b.start

instance : IsTotal Ann startLe := ⟨fun a b => Nat.le_total a.start b.start⟩

instance : IsTrans Ann startLe := ⟨fun _ _ _ h1 h2 => Nat.le_trans h1 h2⟩

/-- Python `sorted(annotations, key=lambda x: x.start)` (a stable sort;
insertion sort is stable). -/
def sortByStart (l : List Ann) : List Ann :=
  List.insertionSort startLe l

theorem sortByStart_perm (l : List Ann) : (sortByStart l).Perm l :=
  List.perm_insertionSort startLe l

/-- The annotation text read back from the passage text at the
annotation's offsets, `p.text[start - offset : end - offset]`. -/
def anntext_by_offset (p : Passage) (a : Ann) : List Char :=
  pySlice p.text ((a.start : Int) - (p.offset : Int))
    ((a.stop : Int) - (p.offset : Int))

/-- The mismatching annotations collected by `test_offsets`, in traversal
order (passages in order, annotations sorted by start). -/
def test_offsets_errors (e : Example) : List Ann :=
  e.passages.flatMap fun p =>
    (sortByStart p.annotations).filter fun a =>
      decide (a.text ≠ anntext_by_offset p a)

/-- `test_offsets`: collect all mismatches, raise `OffsetError` (carrying
every one of them) iff there is at least one.  The function only reads the
example (the model is a pure function of `e`). -/
def test_offsets (e : Example) : Except (List Ann) Unit :=
  if test_offsets_errors e = [] then .ok () else .error (test_offsets_errors e)

theorem test_offsets_errors_mem (e : Example) (a : Ann) :
    a ∈ test_offsets_errors e ↔
      ∃ p ∈ e.passages, a ∈ p.annotations ∧ a.text ≠ anntext_by_offset p a := by
  simp only [test_offsets_errors, List.mem_flatMap, List.mem_filter,
    decide_eq_true_eq]
  constructor
  · rintro ⟨p, hp, ⟨ha, hne⟩⟩
    exact ⟨p, hp, (sortByStart_perm p.annotations).mem_iff.mp ha, hne⟩
  · rintro ⟨p, hp, ha, hne⟩
    exact ⟨p, hp, (sortByStart_perm p.annotations).mem_iff.mpr ha, hne⟩

/-- C6.  `test_offsets` raises an `OffsetError` iff some annotation's text
differs from its owning passage's text sliced at
`[start - offset, end - offset)`, and the raised error enumerates every
mismatching annotation of the example (it does not stop at the first
mismatch).  The example itself is never modified (the model is a pure
function). -/
theorem test_offsets_spec (e : Example) :
    (test_offsets e = .ok () ↔
      ∀ p ∈ e.passages, ∀ a ∈ p.annotations, a.text = anntext_by_offset p a) ∧
    (∀ errs, test_offsets e = .error errs →
      ∀ a, a ∈ errs ↔
        ∃ p ∈ e.passages, a ∈ p.annotations ∧ a.text ≠ anntext_by_offset p a) := by
  constructor
  · rw [test_offsets]
    split
    · rename_i hnil
      simp only [true_iff]
      intro p hp a ha
      by_contra hne
      have : a ∈ test_offsets_errors e :=
        (test_offsets_errors_mem e a).mpr ⟨p, hp, ha, hne⟩
      rw [hnil] at this
      exact absurd this (List.not_mem_nil a)
    · rename_i hnil
      simp only [reduceCtorEq, false_iff]
      intro hall
      apply hnil
      rw [List.eq_nil_iff_forall_not_mem]
      intro a ha
      obtain ⟨p, hp, hmem, hne⟩ := (test_offsets_errors_mem e a).mp ha
      exact hne (hall p hp a hmem)
  · intro errs herr
    rw [test_offsets] at herr
    split at herr
    · exact absurd herr (by simp)
    · cases herr
      exact fun a => test_offsets_errors_mem e a

/-! ## C5: `Example.drop_duplicate_annotations` (data.py) -/

/-- The identity tuple `(start, end, text, entity_type, identifiers)`. -/
abbrev AnnTup := Nat × Nat × List Char × String × String

/-- The inner loop of `drop_duplicate_annotations` over one passage's
start-sorted annotations: keep an annotation iff its `to_tuple` is not in
`seen`, adding kept tuples to `seen`. -/
def dropDupFold (seen : List AnnTup) : List Ann → List AnnTup × List Ann
  | [] => (seen, [])
  | a :: t =>
    if a.to_tuple ∈ seen then dropDupFold seen t
    else
      let r := dropDupFold (a.to_tuple :: seen) t
      (r.1, a :: r.2)

/-- The passage loop of `drop_duplicate_annotations`: the `seen` set is
shared across passages. -/
def dropDupGo (seen : List AnnTup) : List Passage → List Passage
  | [] => []
  | p :: ps =>
    let r := dropDupFold seen (sortByStart p.annotations)
    { p with annotations := r.2 } :: dropDupGo r.1 ps

/-- `Example.drop_duplicate_annotations`: for each passage in order, iterate
over `sorted(p.annotations, key=lambda x: x.start)` and keep an annotation
iff its tuple was not seen before; the passage's annotation list is replaced
by the kept (start-sorted) list. -/
def Example.drop_duplicate_annotations (e : Example) : Example :=
  { e with passages := dropDupGo [] e.passages }

/-- Tuples of all annotations of the first `k` passages, in traversal
order. -/
def prevTuples (ps : List Passage) (k : Nat) : List AnnTup :=
  ((ps.take k).flatMap fun p => sortByStart p.annotations).map Ann.to_tuple

theorem dropDupFold_spec (l : List Ann) : ∀ seen : List AnnTup,
    (dropDupFold seen l).2.Sublist l ∧
    (∀ a : Ann, a ∈ (dropDupFold seen l).2 ↔
      (a.to_tuple ∉ seen ∧
        l.find? (fun x => decide (x.to_tuple = a.to_tuple)) = some a)) ∧
    (∀ t : AnnTup, t ∈ (dropDupFold seen l).1 ↔
      t ∈ seen ∨ t ∈ l.map Ann.to_tuple) := by
  induction l with
  | nil =>
    intro seen
    refine ⟨List.Sublist.refl _, ?_, ?_⟩
    · intro a
      simp [dropDupFold]
    · intro t
      simp [dropDupFold]
  | cons a t ih =>
    intro seen
    by_cases hseen : a.to_tuple ∈ seen
    · have hfold : dropDupFold seen (a :: t) = dropDupFold seen t := by
        simp [dropDupFold, hseen]
      rw [hfold]
      obtain ⟨hsub, hmem, hst⟩ := ih seen
      refine ⟨hsub.cons a, ?_, ?_⟩
      · intro x
        rw [hmem x]
        by_cases hx : x.to_tuple = a.to_tuple
        · constructor
          · rintro ⟨hns, _⟩
            exact absurd (hx ▸ hseen) hns
          · rintro ⟨hns, _⟩
            exact absurd (hx ▸ hseen) hns
        · have heq : (a :: t).find? (fun y => decide (y.to_tuple = x.to_tuple)) =
              t.find? (fun y => decide (y.to_tuple = x.to_tuple)) := by
            rw [List.find?_cons_of_neg]
            simp only [decide_eq_true_eq]
            intro h
            exact hx h.symm
          rw [heq]
      · intro u
        rw [hst u]
        simp only [List.map_cons, List.mem_cons]
        constructor
        · rintro (h | h)
          · exact Or.inl h
          · exact Or.inr (Or.inr h)
        · rintro (h | h | h)
          · exact Or.inl h
          · exact Or.inl (h ▸ hseen)
          · exact Or.inr h
    · have hfold : dropDupFold seen (a :: t) =
          ((dropDupFold (a.to_tuple :: seen) t).1,
            a :: (dropDupFold (a.to_tuple :: seen) t).2) := by
        simp [dropDupFold, hseen]
      rw [hfold]
      obtain ⟨hsub, hmem, hst⟩ := ih (a.to_tuple :: seen)
      refine ⟨hsub.cons₂ a, ?_, ?_⟩
      · intro x
        simp only [List.mem_cons]
        by_cases hxa : x = a
        · subst hxa
          constructor
          · intro _
            refine ⟨hseen, ?_⟩
            rw [List.find?_cons_of_pos _ (by simp)]
          · intro _
            exact Or.inl rfl
        · constructor
          · rintro (h | h)
            · exact absurd h hxa
            · obtain ⟨hns, hf⟩ := (hmem x).mp h
              simp only [List.mem_cons, not_or] at hns
              refine ⟨hns.2, ?_⟩
              rw [List.find?_cons_of_neg]
              · exact hf
              · simp only [decide_eq_true_eq]
                intro hh
                exact hns.1 hh.symm
          · rintro ⟨hns, hf⟩
            by_cases hx : x.to_tuple = a.to_tuple
            · rw [List.find?_cons_of_pos _ (by simp [hx])] at hf
              cases hf
              exact absurd rfl hxa
            · rw [List.find?_cons_of_neg _ (by
                simp only [decide_eq_true_eq]
                intro hh
                exact hx hh.symm)] at hf
              refine Or.inr ((hmem x).mpr ⟨?_, hf⟩)
              simp only [List.mem_cons, not_or]
              exact ⟨fun hh => hx hh, hns⟩
      · intro u
        rw [hst u]
        simp only [List.mem_cons, List.map_cons]
        tauto

/-- Placeholder passage for out-of-range `getD` reads in statements. -/
def dfltPassage : Passage :=
  { id := 0, offset := 0, text := [], annotations := [], type := "" }

theorem dropDupGo_spec (ps : List Passage) : ∀ seen prev : List AnnTup,
    (∀ t : AnnTup, t ∈ seen ↔ t ∈ prev) →
    (dropDupGo seen ps).length = ps.length ∧
    ∀ k, k < ps.length →
      ((dropDupGo seen ps).getD k dfltPassage).annotations.Sublist
          (sortByStart (ps.getD k dfltPassage).annotations) ∧
      ∀ a : Ann, a ∈ ((dropDupGo seen ps).getD k dfltPassage).annotations ↔
        (a.to_tuple ∉ prev ++ prevTuples ps k ∧
          (sortByStart (ps.getD k dfltPassage).annotations).find?
            (fun x => decide (x.to_tuple = a.to_tuple)) = some a) := by
  induction ps with
  | nil =>
    intro seen prev _
    exact ⟨rfl, fun k hk => absurd hk (by simp)⟩
  | cons p pt ih =>
    intro seen prev hequiv
    obtain ⟨_, hmem, hseen'⟩ := dropDupFold_spec (sortByStart p.annotations) seen
    have hequiv' : ∀ t : AnnTup,
        t ∈ (dropDupFold seen (sortByStart p.annotations)).1 ↔
        t ∈ prev ++ (sortByStart p.annotations).map Ann.to_tuple := by
      intro t
      rw [hseen' t, List.mem_append, hequiv t]
    obtain ⟨ihlen, ihk⟩ := ih (dropDupFold seen (sortByStart p.annotations)).1
      (prev ++ (sortByStart p.annotations).map Ann.to_tuple) hequiv'
    constructor
    · simpa [dropDupGo] using ihlen
    · intro k hk
      match k with
      | 0 =>
        obtain ⟨hsub0, hmem0, _⟩ := dropDupFold_spec (sortByStart p.annotations) seen
        constructor
        · simpa [dropDupGo] using hsub0
        · intro a
          have : ((dropDupGo seen (p :: pt)).getD 0 dfltPassage).annotations =
              (dropDupFold seen (sortByStart p.annotations)).2 := by
            simp [dropDupGo]
          rw [this, hmem0 a]
          have hpt : prevTuples (p :: pt) 0 = [] := by simp [prevTuples]
          rw [hpt, List.append_nil, hequiv a.to_tuple]
          simp
      | k + 1 =>
        have hk' : k < pt.length := by simpa using hk
        obtain ⟨ihsub, ihmem⟩ := ihk k hk'
        have hgo : (dropDupGo seen (p :: pt)).getD (k + 1) dfltPassage =
            (dropDupGo (dropDupFold seen (sortByStart p.annotations)).1 pt).getD
              k dfltPassage := by
          simp [dropDupGo]
        have hps : ((p :: pt).getD (k + 1) dfltPassage) = pt.getD k dfltPassage := by
          simp
        have hprev : prevTuples (p :: pt) (k + 1) =
            (sortByStart p.annotations).map Ann.to_tuple ++ prevTuples pt k := by
          simp [prevTuples]
        rw [hgo, hps]
        refine ⟨ihsub, fun a => ?_⟩
        rw [ihmem a, hprev, List.append_assoc]

/-- C5 amended.  `drop_duplicate_annotations` keeps an annotation iff no
annotation with an equal `(start, end, text, entity_type, identifiers)`
tuple occurs strictly earlier in the start-sorted traversal (passages in
order, each passage's annotations sorted by ascending start): each output
passage list is a sublist of the *start-sorted* input list (not of the
insertion-ordered one), and an annotation is in it iff its tuple does not
occur in an earlier passage and it is the first annotation of its tuple in
its own sorted passage. -/
theorem drop_duplicate_annotations_correct (e : Example) :
    (e.drop_duplicate_annotations).passages.length = e.passages.length ∧
    ∀ k, k < e.passages.length →
      ((e.drop_duplicate_annotations).passages.getD k dfltPassage).annotations.Sublist
          (sortByStart (e.passages.getD k dfltPassage).annotations) ∧
      ∀ a : Ann,
        a ∈ ((e.drop_duplicate_annotations).passages.getD k dfltPassage).annotations ↔
          (a.to_tuple ∉ prevTuples e.passages k ∧
            (sortByStart (e.passages.getD k dfltPassage).annotations).find?
              (fun x => decide (x.to_tuple = a.to_tuple)) = some a) := by
  obtain ⟨hlen, hk⟩ := dropDupGo_spec e.passages [] []
    (fun t => Iff.rfl)
  refine ⟨hlen, fun k hkk => ?_⟩
  obtain ⟨hsub, hmem⟩ := hk k hkk
  refine ⟨hsub, fun a => ?_⟩
  rw [Example.drop_duplicate_annotations] at *
  rw [hmem a]
  simp

def aC5 : Ann := mkAnn 0 1 ['a'] "gene" (.strId "1") false 0

def bC5 : Ann := mkAnn 5 6 ['f'] "gene" (.strId "2") false 1

def eC5 : Example :=
  { id := "x",
    passages := [{ id := 0, offset := 0,
                   text := ['a', 'b', 'c', 'd', 'e', 'f', 'g', 'h'],
                   annotations := [bC5, aC5], type := "title" }] }

/-- C5 counterexample.  A passage whose annotation list `[b, a]` is not
ordered by start and contains no duplicates at all: the claim says the
pass only collapses duplicate sets "keeping the insertion order", so the
list should come out unchanged, but `drop_duplicate_annotations` re-sorts
it to `[a, b]`. -/
theorem drop_duplicate_annotations_cex :
    List.Pairwise (fun x y : Ann => x.to_tuple ≠ y.to_tuple) [bC5, aC5] ∧
    (eC5.drop_duplicate_annotations).passages.map (fun p => p.annotations) =
      [[aC5, bC5]] ∧
    ([[aC5, bC5]] : List (List Ann)) ≠ [[bC5, aC5]] := by
  refine ⟨?_, ?_, ?_⟩ <;> decide

/-! ## C3: `Example.group_annotations_by_span` (data.py), the
grouped-annotation merge of `prepare`.

Python groups a passage's annotations in an insertion-ordered dict keyed
by `to_tuple(identifiers=False)`; every group of two or more annotations
is replaced by its first member, whose `original["entity_type"]` /
`original["identifiers"]` become the lists of the constituents' snapshots
(the live `identifiers` field is only reconciled later, by the corpus
parser, from `original["identifiers"]`).  The `assert` that all
constituents agree on `foreign` is modelled as an `Except.error`. -/

abbrev AnnKey := Nat × Nat × List Char × String

/-- Default annotation for `headD` reads. -/
def dfltAnn : Ann := mkAnn 0 0 [] "" (.strId "") false 0

/-- Keys of the insertion-ordered Python dict: first occurrence order,
no duplicates. -/
def keyList : List Ann → List AnnKey
  | [] => []
  | a :: t => a.to_key :: (keyList t).filter fun k => decide (k ≠ a.to_key)

/-- The single annotation replacing a group of 2+: the first member with
its original entity types / identifiers replaced by the lists of the
constituents' snapshots. -/
def mergedOf (g : List Ann) : Ann :=
  { g.headD dfltAnn with
    original := { (g.headD dfltAnn).original with
      entity_type := .grouped (g.map fun x => x.original.entity_type),
      identifiers := .grouped (g.map fun x => x.original.identifiers) } }

/-- Merge one key group (`len(annotations) > 1` branch of the Python loop,
with its `foreign`-uniformity assert). -/
def mergeGroup : List Ann → Except String Ann
  | [] => .error "Cannot merge an empty annotation group"
  | [a] => .ok a
  | a :: b :: rest =>
    if (a :: b :: rest).all fun x => x.foreign == a.foreign then
      .ok (mergedOf (a :: b :: rest))
    else
      .error "Duplicate annotation has multiple values for foreign field"

/-- Python `for`-loop with `raise`: stop at the first error. -/
def mapExcept (f : α → Except String β) : List α → Except String (List β)
  | [] => .ok []
  | x :: t =>
    match f x, mapExcept f t with
    | .ok y, .ok ys => .ok (y :: ys)
    | .error e, _ => .error e
    | .ok _, .error e => .error e

/-- `Example.group_annotations_by_span`, one passage: group by span key,
replace every group by one annotation. -/
def Passage.group_annotations_by_span (p : Passage) : Except String Passage :=
  (mapExcept
      (fun k => mergeGroup (p.annotations.filter fun a => decide (a.to_key = k)))
      (keyList p.annotations)).map
    fun anns => { p with annotations := anns }

/-- `Example.group_annotations_by_span`: every passage in order. -/
def Example.group_annotations_by_span (e : Example) : Except String Example :=
  (mapExcept Passage.group_annotations_by_span e.passages).map
    fun ps => { e with passages := ps }

/-- Identifier strings carried by a live `identifiers` value. -/
def IdVal.toList : IdVal → List String
  | .strId s => [s]
  | .listId l => l

mutual

/-- Identifier strings carried by an `original["identifiers"]` snapshot. -/
def OrigIds.toList : OrigIds → List String
  | .snap v => v.toList
  | .grouped l => OrigIds.toListList l

def OrigIds.toListList : List OrigIds → List String
  | [] => []
  | x :: t => OrigIds.toList x ++ OrigIds.toListList t

end

theorem OrigIds.toListList_eq (l : List OrigIds) :
    OrigIds.toListList l = (l.map OrigIds.toList).flatten := by
  induction l with
  | nil => rfl
  | cons x t ih => simp [OrigIds.toListList, ih]

theorem keyList_mem (l : List Ann) (k : AnnKey) :
    k ∈ keyList l ↔ k ∈ l.map Ann.to_key := by
  induction l with
  | nil => simp [keyList]
  | cons a t ih =>
    simp only [keyList, List.mem_cons, List.mem_filter, List.map_cons,
      decide_eq_true_eq, ih]
    by_cases hk : k = a.to_key
    · simp [hk]
    · simp [hk]

theorem keyList_nodup (l : List Ann) : (keyList l).Nodup := by
  induction l with
  | nil => simp [keyList]
  | cons a t ih =>
    refine List.Nodup.cons ?_ (ih.filter _)
    intro hmem
    have := (List.mem_filter.mp hmem).2
    simp at this

theorem mapExcept_ok (f : α → Except String β) (g : α → β) :
    ∀ l : List α, (∀ x ∈ l, f x = .ok (g x)) →
      mapExcept f l = .ok (l.map g) := by
  intro l
  induction l with
  | nil => intro _; rfl
  | cons x t ih =>
    intro h
    have hx : f x = .ok (g x) := h x (List.mem_cons_self x t)
    have ht := ih fun y hy => h y (List.mem_cons_of_mem x hy)
    simp [mapExcept, hx, ht]

/-- The annotation a key group collapses to: the group itself for a
singleton, the merged annotation for 2+. -/
def mergedFor (anns : List Ann) (k : AnnKey) : Ann :=
  if (anns.filter fun a => decide (a.to_key = k)).length = 1 then
    (anns.filter fun a => decide (a.to_key = k)).headD dfltAnn
  else mergedOf (anns.filter fun a => decide (a.to_key = k))

theorem filter_headD_mem {anns : List Ann} {q : Ann → Bool}
    (h : anns.filter q ≠ []) :
    (anns.filter q).headD dfltAnn ∈ anns.filter q := by
  cases hg : anns.filter q with
  | nil => exact absurd hg h
  | cons g0 gt => simp [hg]

theorem mergedOf_to_key (g : List Ann) :
    (mergedOf g).to_key = (g.headD dfltAnn).to_key := rfl

theorem mergedFor_key (anns : List Ann) (k : AnnKey)
    (h : anns.filter (fun a => decide (a.to_key = k)) ≠ []) :
    (mergedFor anns k).to_key = k := by
  have hmem := filter_headD_mem h
  have hk := (List.mem_filter.mp hmem).2
  simp only [decide_eq_true_eq] at hk
  by_cases hl : (anns.filter (fun a => decide (a.to_key = k))).length = 1
  · unfold mergedFor
    rw [if_pos hl]
    exact hk
  · unfold mergedFor
    rw [if_neg hl, mergedOf_to_key]
    exact hk

theorem mergeGroup_eq_ok (g : List Ann) (hne : g ≠ [])
    (hfu : ∀ x ∈ g, x.foreign = (g.headD dfltAnn).foreign) :
    mergeGroup g = .ok (if g.length = 1 then g.headD dfltAnn else mergedOf g) := by
  match g with
  | [] => exact absurd rfl hne
  | [a] => rfl
  | a :: b :: rest =>
    have hall : (a :: b :: rest).all (fun x => x.foreign == a.foreign) = true := by
      rw [List.all_eq_true]
      intro x hx
      have := hfu x hx
      simp only [List.headD_cons] at this
      simp [this]
    have hlen : ¬ (a :: b :: rest).length = 1 := by simp
    simp [mergeGroup, hall, hlen]

theorem filter_map_onkeys (ks : List AnnKey) (f : AnnKey → Ann)
    (hnd : ks.Nodup) (hf : ∀ k ∈ ks, (f k).to_key = k) (key : AnnKey) :
    (ks.map f).filter (fun a => decide (a.to_key = key)) =
      if key ∈ ks then [f key] else [] := by
  induction ks with
  | nil => simp
  | cons k t ih =>
    have hk := hf k (List.mem_cons_self k t)
    have hnd' := hnd.of_cons
    have hknot : k ∉ t := (List.nodup_cons.mp hnd).1
    have iht := ih hnd' fun x hx => hf x (List.mem_cons_of_mem k hx)
    simp only [List.map_cons, List.filter_cons]
    by_cases hkey : k = key
    · subst hkey
      rw [if_pos (by simp [hk]), iht, if_neg hknot, if_pos (List.mem_cons_self k t)]
    · rw [if_neg (by simp [hk, hkey]), iht]
      by_cases hmem : key ∈ t
      · rw [if_pos hmem, if_pos (List.mem_cons_of_mem k hmem)]
      · rw [if_neg hmem, if_neg (by
          intro hc
          rcases List.mem_cons.mp hc with h | h
          · exact hkey h.symm
          · exact hmem h)]

/-- One passage, merged: each key of the insertion-ordered dict maps to its
collapsed annotation. -/
def passageMerged (p : Passage) : Passage :=
  { p with annotations := (keyList p.annotations).map (mergedFor p.annotations) }

theorem passage_group_spec (p : Passage)
    (hf : ∀ a ∈ p.annotations, ∀ b ∈ p.annotations,
        a.to_key = b.to_key → a.foreign = b.foreign) :
    Passage.group_annotations_by_span p = .ok (passageMerged p) := by
  unfold Passage.group_annotations_by_span passageMerged
  rw [mapExcept_ok _ (mergedFor p.annotations) _ ?_]
  · rfl
  · intro k hk
    obtain ⟨a, ha, hak⟩ := by
      have := (keyList_mem p.annotations k).mp hk
      simpa using this
    have hne : p.annotations.filter (fun a => decide (a.to_key = k)) ≠ [] := by
      intro hnil
      have : a ∈ p.annotations.filter (fun a => decide (a.to_key = k)) :=
        List.mem_filter.mpr ⟨ha, by simp [hak]⟩
      rw [hnil] at this
      exact absurd this (List.not_mem_nil a)
    have hhead := filter_headD_mem hne
    have hfu : ∀ x ∈ p.annotations.filter (fun a => decide (a.to_key = k)),
        x.foreign = ((p.annotations.filter
          (fun a => decide (a.to_key = k))).headD dfltAnn).foreign := by
      intro x hx
      have hx1 := List.mem_filter.mp hx
      have hh1 := List.mem_filter.mp hhead
      simp only [decide_eq_true_eq] at hx1 hh1
      exact hf x hx1.1 _ hh1.1 (hx1.2.trans hh1.2.symm)
    rw [mergeGroup_eq_ok _ hne hfu]
    rfl

theorem getD_map_passage (f : Passage → Passage) (l : List Passage) (k : Nat)
    (h : k < l.length) :
    (l.map f).getD k dfltPassage = f (l.getD k dfltPassage) := by
  rw [List.getD_eq_getElem _ _ (by simpa using h), List.getD_eq_getElem _ _ h,
    List.getElem_map]

/-- C3.  For every example whose annotations agree on `foreign` within a
span key (the merge's own assert), the grouped-annotation merge succeeds,
and in every passage each set of 2+ annotations sharing
`(start, end, text, entity_type)` is replaced by exactly one annotation —
the remaining annotations with that key form precisely the one-element
list `[mergedOf group]` — whose recorded identifiers are the union
(concatenation) of the constituents' identifier lists. -/
theorem example_group_annotations_merge (e : Example)
    (hf : ∀ p ∈ e.passages, ∀ a ∈ p.annotations, ∀ b ∈ p.annotations,
        a.to_key = b.to_key → a.foreign = b.foreign) :
    ∃ e', Example.group_annotations_by_span e = .ok e' ∧
      e'.passages.length = e.passages.length ∧
      ∀ k, k < e.passages.length → ∀ key : AnnKey,
        2 ≤ ((e.passages.getD k dfltPassage).annotations.filter
            (fun a => decide (a.to_key = key))).length →
        ((e'.passages.getD k dfltPassage).annotations.filter
            (fun a => decide (a.to_key = key))) =
          [mergedOf ((e.passages.getD k dfltPassage).annotations.filter
            (fun a => decide (a.to_key = key)))] ∧
        (mergedOf ((e.passages.getD k dfltPassage).annotations.filter
            (fun a => decide (a.to_key = key)))).original.identifiers.toList =
          (((e.passages.getD k dfltPassage).annotations.filter
            (fun a => decide (a.to_key = key))).map
              fun a => a.original.identifiers.toList).flatten := by
  refine ⟨{ e with passages := e.passages.map passageMerged }, ?_, by simp, ?_⟩
  · unfold Example.group_annotations_by_span
    rw [mapExcept_ok _ passageMerged _ fun p hp => passage_group_spec p (hf p hp)]
    rfl
  · intro k hk key hlen
    have hmap : ({ e with passages := e.passages.map passageMerged } :
        Example).passages.getD k dfltPassage =
        passageMerged (e.passages.getD k dfltPassage) :=
      getD_map_passage passageMerged e.passages k hk
    set p := e.passages.getD k dfltPassage with hp
    have hne : p.annotations.filter (fun a => decide (a.to_key = key)) ≠ [] := by
      intro hnil
      rw [hnil] at hlen
      simp at hlen
    have hmemkey : key ∈ keyList p.annotations := by
      have hhead := filter_headD_mem hne
      have h1 := List.mem_filter.mp hhead
      simp only [decide_eq_true_eq] at h1
      rw [keyList_mem]
      exact List.mem_map.mpr ⟨_, h1.1, h1.2⟩
    have hlen1 : ¬ (p.annotations.filter
        (fun a => decide (a.to_key = key))).length = 1 := by omega
    constructor
    · rw [hmap]
      unfold passageMerged
      show ((keyList p.annotations).map (mergedFor p.annotations)).filter _ = _
      rw [filter_map_onkeys _ _ (keyList_nodup _) ?_ key, if_pos hmemkey]
      · unfold mergedFor
        rw [if_neg hlen1]
      · intro u hu
        apply mergedFor_key
        intro hnil
        have hmm := (keyList_mem p.annotations u).mp hu
        obtain ⟨a, ha, hak⟩ := by simpa using hmm
        have : a ∈ p.annotations.filter (fun x => decide (x.to_key = u)) :=
          List.mem_filter.mpr ⟨ha, by simp [hak]⟩
        rw [hnil] at this
        exact absurd this (List.not_mem_nil a)
    · show (OrigIds.grouped _).toList = _
      rw [OrigIds.toList, OrigIds.toListList_eq, List.map_map]
      rfl

def aC3 : Ann := mkAnn 4 9 ['B', 'R', 'C', 'A', '1'] "gene" (.strId "672") false 0

def bC3 : Ann := mkAnn 4 9 ['B', 'R', 'C', 'A', '1'] "gene" (.strId "675") false 1

def eC3 : Example :=
  { id := "d1",
    passages := [{ id := 0, offset := 0,
                   text := ['t', 'h', 'e', ' ', 'B', 'R', 'C', 'A', '1'],
                   annotations := [aC3, bC3], type := "title" }] }

/-- C3 witness: two annotations equal up to identifiers collapse to one
carrying both identifiers. -/
theorem example_group_annotations_merge_witness :
    ∃ e', Example.group_annotations_by_span eC3 = .ok e' ∧
      e'.passages.length = eC3.passages.length ∧
      ∀ k, k < eC3.passages.length → ∀ key : AnnKey,
        2 ≤ ((eC3.passages.getD k dfltPassage).annotations.filter
            (fun a => decide (a.to_key = key))).length →
        ((e'.passages.getD k dfltPassage).annotations.filter
            (fun a => decide (a.to_key = key))) =
          [mergedOf ((eC3.passages.getD k dfltPassage).annotations.filter
            (fun a => decide (a.to_key = key)))] ∧
        (mergedOf ((eC3.passages.getD k dfltPassage).annotations.filter
            (fun a => decide (a.to_key = key)))).original.identifiers.toList =
          (((eC3.passages.getD k dfltPassage).annotations.filter
            (fun a => decide (a.to_key = key))).map
              fun a => a.original.identifiers.toList).flatten :=
  example_group_annotations_merge eC3 (by decide)

/-! ## C1: `BaseTransformation.group_annotations_by_span` (transform.py) -/

/-- The sort key `(x.start, -len(x.text))`: ascending start, longest text
first on ties. -/
def spanOrd : Ann → Ann → Prop := fun a b =>
  a.start < b.start ∨ (a.start = b.start ∧ b.text.length ≤ a.text.length)

instance : DecidableRel spanOrd := fun a b => by
  unfold spanOrd
  exact inferInstance

instance : IsTotal Ann spanOrd := ⟨fun a b => by unfold spanOrd; omega⟩

instance : IsTrans Ann spanOrd := ⟨fun a b c h1 h2 => by
  unfold spanOrd at *
  omega⟩

/-- `sorted(annotations, key=lambda x: (x.start, -1 * len(x.text)))`. -/
def sortAnns (l : List Ann) : List Ann :=
  List.insertionSort spanOrd l

theorem sortAnns_perm (l : List Ann) : (sortAnns l).Perm l :=
  List.perm_insertionSort spanOrd l

theorem sortAnns_sorted_start (l : List Ann) :
    (sortAnns l).Pairwise fun a b => a.start ≤ b.start :=
  (List.sorted_insertionSort spanOrd l).imp fun h => by
    unfold spanOrd at h
    omega

/-- The sweep of `group_annotations_by_span`: `a` joins the open bucket if
it is nested in or overlaps any member, else the bucket closes. -/
def groupGo (bucket : List Ann) (acc : List (List Ann)) :
    List Ann → List (List Ann)
  | [] => acc ++ [bucket]
  | a :: rest =>
    if bucket.any (fun o => a.nested o || a.overlaps o) then
      groupGo (bucket ++ [a]) acc rest
    else
      groupGo [a] (acc ++ [bucket]) rest

/-- `BaseTransformation.group_annotations_by_span` (the Python function
asserts its input non-empty; the model returns `[]` there). -/
def group_annotations_by_span (l : List Ann) : List (List Ann) :=
  match sortAnns l with
  | [] => []
  | a :: rest => groupGo [a] [] rest

/-- One step of the claim's chain: overlap or nesting, in either
direction. -/
def chainStep (x y : Ann) : Prop :=
  x.nested y = true ∨ x.overlaps y = true ∨
  y.nested x = true ∨ y.overlaps x = true

/-- One step of the chain, inside the annotation list `l`. -/
def chainRel (l : List Ann) (x y : Ann) : Prop :=
  x ∈ l ∧ y ∈ l ∧ chainStep x y

theorem chainStep_symm {x y : Ann} (h : chainStep x y) : chainStep y x := by
  unfold chainStep at *
  tauto

theorem chainRel_symm {l : List Ann} {x y : Ann} (h : chainRel l x y) :
    chainRel l y x :=
  ⟨h.2.1, h.1, chainStep_symm h.2.2⟩

theorem chainStep_iff_touch {x y : Ann}
    (hx : x.start < x.stop) (hy : y.start < y.stop) :
    chainStep x y ↔ (x.start < y.stop ∧ y.start < x.stop) := by
  unfold chainStep Ann.nested Ann.overlaps
  simp only [decide_eq_true_eq]
  omega

/-- Members of closed buckets end before every member of later buckets
starts. -/
def gapped (B B' : List Ann) : Prop :=
  ∀ x ∈ B, ∀ y ∈ B', x.stop ≤ y.start

theorem groupGo_flatten (rest : List Ann) : ∀ bucket acc,
    (groupGo bucket acc rest).flatten = acc.flatten ++ bucket ++ rest := by
  induction rest with
  | nil =>
    intro bucket acc
    simp [groupGo]
  | cons a rest ih =>
    intro bucket acc
    rw [groupGo]
    split
    · rw [ih]
      simp
    · rw [ih]
      simp

theorem bucket_seals (bucket : List Ann) (a : Ann)
    (hne : ∀ x ∈ bucket, x.start < x.stop) (ha : a.start < a.stop)
    (hsort : ∀ x ∈ bucket, x.start ≤ a.start)
    (hnot : ¬ bucket.any (fun o => a.nested o || a.overlaps o) = true) :
    ∀ m ∈ bucket, m.stop ≤ a.start := by
  intro m hm
  simp only [List.any_eq_true, Bool.or_eq_true, Ann.nested, Ann.overlaps,
    decide_eq_true_eq] at hnot
  push_neg at hnot
  have h1 := hnot m hm
  have h2 := hne m hm
  have h3 := hsort m hm
  omega

theorem groupGo_gap (rest : List Ann) : ∀ bucket acc,
    (∀ x ∈ bucket ++ rest, x.start < x.stop) →
    ((bucket ++ rest).Pairwise fun a b => a.start ≤ b.start) →
    (∀ B ∈ acc, gapped B (bucket ++ rest)) →
    acc.Pairwise gapped →
    (groupGo bucket acc rest).Pairwise gapped := by
  induction rest with
  | nil =>
    intro bucket acc hne hsort hacc haccp
    simp only [List.append_nil] at hacc
    rw [groupGo, List.pairwise_append]
    refine ⟨haccp, List.pairwise_singleton _ _, ?_⟩
    intro B hB b hb
    rw [List.mem_singleton] at hb
    subst hb
    exact hacc B hB
  | cons a rest ih =>
    intro bucket acc hne hsort hacc haccp
    rw [groupGo]
    have hrearr : bucket ++ a :: rest = (bucket ++ [a]) ++ rest := by simp
    split
    · rename_i htouch
      rw [hrearr] at hne hsort
      refine ih (bucket ++ [a]) acc hne hsort ?_ haccp
      intro B hB
      have := hacc B hB
      rw [hrearr] at this
      exact this
    · rename_i hnot
      have hcross := (List.pairwise_append.mp hsort).2.2
      have hsealed : ∀ m ∈ bucket, m.stop ≤ a.start :=
        bucket_seals bucket a
          (fun x hx => hne x (List.mem_append_left _ hx))
          (hne a (List.mem_append_right _ (List.mem_cons_self a rest)))
          (fun x hx => hcross x hx a (List.mem_cons_self a rest))
          hnot
      refine ih [a] (acc ++ [bucket]) ?_ ?_ ?_ ?_
      · intro x hx
        refine hne x ?_
        rcases List.mem_append.mp hx with h | h
        · rw [List.mem_singleton] at h
          subst h
          exact List.mem_append_right _ (List.mem_cons_self _ rest)
        · exact List.mem_append_right _ (List.mem_cons_of_mem a h)
      · have : (a :: rest).Pairwise fun a b => a.start ≤ b.start :=
          (List.pairwise_append.mp hsort).2.1
        simpa using this
      · intro B hB
        rcases List.mem_append.mp hB with h | h
        · intro x hx y hy
          refine hacc B h x hx y ?_
          rcases List.mem_append.mp hy with h2 | h2
          · rw [List.mem_singleton] at h2
            subst h2
            exact List.mem_append_right _ (List.mem_cons_self _ rest)
          · exact List.mem_append_right _ (List.mem_cons_of_mem a h2)
        · rw [List.mem_singleton] at h
          subst h
          intro x hx y hy
          have hxa := hsealed x hx
          rcases List.mem_append.mp hy with h2 | h2
          · rw [List.mem_singleton] at h2
            subst h2
            exact hxa
          · have := (List.pairwise_append.mp hsort).2.1
            have hay : a.start ≤ y.start := by
              rcases List.pairwise_cons.mp this with ⟨hh, _⟩
              exact hh y h2
            omega
      · rw [List.pairwise_append]
        refine ⟨haccp, List.pairwise_singleton _ _, ?_⟩
        intro B hB b hb
        rw [List.mem_singleton] at hb
        subst hb
        intro x hx y hy
        exact hacc B hB x hx y (List.mem_append_left _ hy)

/-- All members of a bucket are chain-connected inside `l`. -/
def bucketConn (l : List Ann) (B : List Ann) : Prop :=
  ∀ x ∈ B, ∀ y ∈ B, Relation.ReflTransGen (chainRel l) x y

theorem groupGo_conn (l : List Ann) (rest : List Ann) : ∀ bucket acc,
    (∀ x ∈ bucket ++ rest, x ∈ l) →
    bucketConn l bucket →
    (∀ B ∈ acc, bucketConn l B) →
    ∀ B ∈ groupGo bucket acc rest, bucketConn l B := by
  induction rest with
  | nil =>
    intro bucket acc _ hconn hacc B hB
    rw [groupGo] at hB
    rcases List.mem_append.mp hB with h | h
    · exact hacc B h
    · rw [List.mem_singleton] at h
      subst h
      exact hconn
  | cons a rest ih =>
    intro bucket acc hsub hconn hacc B hB
    rw [groupGo] at hB
    have hsub' : ∀ x ∈ (bucket ++ [a]) ++ rest, x ∈ l := by
      intro x hx
      refine hsub x ?_
      simp only [List.append_assoc, List.singleton_append] at hx
      exact hx
    split at hB
    · rename_i htouch
      refine ih (bucket ++ [a]) acc hsub' ?_ hacc B hB
      simp only [List.any_eq_true, Bool.or_eq_true] at htouch
      obtain ⟨o, ho, hstep⟩ := htouch
      have hal : a ∈ l :=
        hsub a (List.mem_append_right _ (List.mem_cons_self a rest))
      have hol : o ∈ l := hsub o (List.mem_append_left _ ho)
      have hao : chainRel l a o := ⟨hal, hol, by unfold chainStep; tauto⟩
      intro x hx y hy
      rcases List.mem_append.mp hx with hxb | hxa
      · rcases List.mem_append.mp hy with hyb | hya
        · exact hconn x hxb y hyb
        · rw [List.mem_singleton] at hya
          subst hya
          exact (hconn x hxb o ho).tail (chainRel_symm hao)
      · rw [List.mem_singleton] at hxa
        subst hxa
        rcases List.mem_append.mp hy with hyb | hya
        · exact Relation.ReflTransGen.head hao (hconn o ho y hyb)
        · rw [List.mem_singleton] at hya
          subst hya
          exact Relation.ReflTransGen.refl
    · refine ih [a] (acc ++ [bucket]) ?_ ?_ ?_ B hB
      · intro x hx
        refine hsub x ?_
        rcases List.mem_append.mp hx with h | h
        · rw [List.mem_singleton] at h
          subst h
          exact List.mem_append_right _ (List.mem_cons_self _ rest)
        · exact List.mem_append_right _ (List.mem_cons_of_mem a h)
      · intro x hx y hy
        rw [List.mem_singleton] at hx hy
        subst hx
        subst hy
        exact Relation.ReflTransGen.refl
      · intro B' hB'
        rcases List.mem_append.mp hB' with h | h
        · exact hacc B' h
        · rw [List.mem_singleton] at h
          subst h
          exact hconn

theorem mem_bucket_of_step (gs : List (List Ann))
    (hp : gs.Pairwise fun B B' => ∀ x ∈ B, ∀ y ∈ B', ¬ chainStep x y) :
    ∀ B ∈ gs, ∀ z ∈ B, ∀ y ∈ gs.flatten, chainStep z y → y ∈ B := by
  induction gs with
  | nil => simp
  | cons g gt ih =>
    intro B hB z hz y hy hstep
    obtain ⟨hg, hgt⟩ := List.pairwise_cons.mp hp
    rcases List.mem_cons.mp hB with hBg | hBgt
    · subst hBg
      rcases List.mem_flatten.mp hy with ⟨B', hB', hyB'⟩
      rcases List.mem_cons.mp hB' with h | h
      · exact h ▸ hyB'
      · exact absurd hstep (hg B' h z hz y hyB')
    · rcases List.mem_flatten.mp hy with ⟨B', hB', hyB'⟩
      rcases List.mem_cons.mp hB' with h | h
      · subst h
        exact absurd (chainStep_symm hstep) (hg B hBgt y hyB' z hz)
      · exact ih hgt B hBgt z hz y (List.mem_flatten.mpr ⟨B', h, hyB'⟩) hstep

theorem group_flatten (l : List Ann) :
    (group_annotations_by_span l).flatten = sortAnns l := by
  unfold group_annotations_by_span
  rcases hs : sortAnns l with _ | ⟨a, rest⟩
  · rfl
  · rw [groupGo_flatten]
    rfl

theorem group_pairwise_gapped (l : List Ann) (h : ∀ a ∈ l, a.start < a.stop) :
    (group_annotations_by_span l).Pairwise gapped := by
  unfold group_annotations_by_span
  rcases hs : sortAnns l with _ | ⟨a, rest⟩
  · exact List.Pairwise.nil
  · have hmem : ∀ x ∈ a :: rest, x ∈ l := by
      intro x hx
      rw [← hs] at hx
      exact (sortAnns_perm l).mem_iff.mp hx
    refine groupGo_gap rest [a] [] ?_ ?_ (by simp) List.Pairwise.nil
    · intro x hx
      simp only [List.singleton_append] at hx
      exact h x (hmem x hx)
    · have := sortAnns_sorted_start l
      rw [hs] at this
      simpa using this

/-- C1.  `group_annotations_by_span` returns an ordered partition of the
passage's annotations (its concatenation is a permutation of the input);
two annotations in different groups are never related by overlap or
nesting in either direction; and two annotations are in the same group iff
they are connected by a chain of pairwise overlap/nesting steps within the
input list.  Hypothesis: every span is non-empty (`start < end`), the
well-formedness every real annotation satisfies (`text` is the non-empty
substring the offsets denote). -/
theorem group_annotations_by_span_partition (l : List Ann)
    (h : ∀ a ∈ l, a.start < a.stop) :
    ((group_annotations_by_span l).flatten).Perm l ∧
    ((group_annotations_by_span l).Pairwise
      fun B B' => ∀ x ∈ B, ∀ y ∈ B', ¬ chainStep x y) ∧
    ∀ B ∈ group_annotations_by_span l, ∀ x ∈ B, ∀ y ∈ l,
      (Relation.ReflTransGen (chainRel l) x y ↔ y ∈ B) := by
  have hflat : (group_annotations_by_span l).flatten = sortAnns l :=
    group_flatten l
  have hperm : ((group_annotations_by_span l).flatten).Perm l := by
    rw [hflat]
    exact sortAnns_perm l
  have hmem_l : ∀ x, x ∈ (group_annotations_by_span l).flatten ↔ x ∈ l :=
    fun x => hperm.mem_iff
  have hnostep : (group_annotations_by_span l).Pairwise
      fun B B' => ∀ x ∈ B, ∀ y ∈ B', ¬ chainStep x y := by
    have hg := group_pairwise_gapped l h
    refine hg.imp_of_mem ?_
    intro B B' hB hB' hgap x hx y hy hstep
    have hxl : x ∈ l :=
      (hmem_l x).mp (List.mem_flatten.mpr ⟨B, hB, hx⟩)
    have hyl : y ∈ l :=
      (hmem_l y).mp (List.mem_flatten.mpr ⟨B', hB', hy⟩)
    have := (chainStep_iff_touch (h x hxl) (h y hyl)).mp hstep
    have := hgap x hx y hy
    omega
  have hconn : ∀ B ∈ group_annotations_by_span l, bucketConn l B := by
    unfold group_annotations_by_span
    rcases hs : sortAnns l with _ | ⟨a, rest⟩
    · simp
    · have hmem : ∀ x ∈ a :: rest, x ∈ l := by
        intro x hx
        rw [← hs] at hx
        exact (sortAnns_perm l).mem_iff.mp hx
      refine groupGo_conn l rest [a] [] ?_ ?_ (by simp)
      · intro x hx
        simp only [List.singleton_append] at hx
        exact hmem x hx
      · intro x hx y hy
        rw [List.mem_singleton] at hx hy
        subst hx
        subst hy
        exact Relation.ReflTransGen.refl
  refine ⟨hperm, hnostep, ?_⟩
  intro B hB x hx
  have hfwd : ∀ y, Relation.ReflTransGen (chainRel l) x y → y ∈ B := by
    intro y hpath
    induction hpath with
    | refl => exact hx
    | tail h1 h2 ih =>
      rename_i z y'
      exact mem_bucket_of_step _ hnostep B hB z ih y'
        ((hmem_l y').mpr h2.2.1) h2.2.2
  intro y hyl
  exact ⟨hfwd y, fun hyB => hconn B hB x hx y hyB⟩

def aC1 : Ann := mkAnn 0 13 "BRCA1 protein".toList "gene" (.strId "672") false 0

def bC1 : Ann := mkAnn 0 5 "BRCA1".toList "gene" (.strId "672") false 1

def cC1 : Ann := mkAnn 17 26 "expressed".toList "gene" (.strId "9") false 2

/-- C1 witness: two nested annotations and one independent annotation. -/
theorem group_annotations_by_span_partition_witness :
    (∀ a ∈ [aC1, bC1, cC1], a.start < a.stop) ∧
    (((group_annotations_by_span [aC1, bC1, cC1]).flatten).Perm
        [aC1, bC1, cC1] ∧
      ((group_annotations_by_span [aC1, bC1, cC1]).Pairwise
        fun B B' => ∀ x ∈ B, ∀ y ∈ B', ¬ chainStep x y) ∧
      ∀ B ∈ group_annotations_by_span [aC1, bC1, cC1], ∀ x ∈ B,
        ∀ y ∈ [aC1, bC1, cC1],
        (Relation.ReflTransGen (chainRel [aC1, bC1, cC1]) x y ↔ y ∈ B)) :=
  ⟨by decide, group_annotations_by_span_partition [aC1, bC1, cC1] (by decide)⟩

/-! ## C8 / C4: `SplitIntoSentences` (segment.py).

Sentence offsets are the dict `idx -> (start, end)`; positions are the
(re-enumerated) indices, so the dict is a `List (Nat × Nat)`.  Python
tests membership in `range(start, end + 1)`, i.e. inclusive bounds, with
`a.start - passage.offset` computed in `int` arithmetic (`Int` here). -/

abbrev Span := Nat × Nat

/-- An annotation of `p` spans the boundary between candidate sentences
`i` and `i + 1`: its start lies in sentence `i` (inclusive range) and its
end in sentence `i + 1`. -/
def crossingAt (offsets : List Span) (p : Passage) (i : Nat) : Prop :=
  ∃ a ∈ p.annotations,
    ((offsets.getD i (0, 0)).1 : Int) ≤ (a.start : Int) - (p.offset : Int) ∧
    (a.start : Int) - (p.offset : Int) ≤ ((offsets.getD i (0, 0)).2 : Int) ∧
    ((offsets.getD (i + 1) (0, 0)).1 : Int) ≤ (a.stop : Int) - (p.offset : Int) ∧
    (a.stop : Int) - (p.offset : Int) ≤ ((offsets.getD (i + 1) (0, 0)).2 : Int)

instance (offsets : List Span) (p : Passage) (i : Nat) :
    Decidable (crossingAt offsets p i) := by
  unfold crossingAt
  exact inferInstance

/-- `contiguous_sentences` as a sorted duplicate-free list: index `j` is in
the set iff sentences `(j, j+1)` or `(j-1, j)` are crossed. -/
def crossIdx (offsets : List Span) (p : Passage) : List Nat :=
  (List.range offsets.length).filter fun j =>
    decide ((j + 1 < offsets.length ∧ crossingAt offsets p j) ∨
            (1 ≤ j ∧ crossingAt offsets p (j - 1)))

/-- `itertools.groupby` on `ix[0] - ix[1]`: maximal runs of consecutive
integers (`cur` holds the current run reversed). -/
def runsAux (lastv : Nat) (cur : List Nat) : List Nat → List (List Nat)
  | [] => [cur.reverse]
  | y :: ys =>
    if y = lastv + 1 then runsAux y (y :: cur) ys
    else cur.reverse :: runsAux y [y] ys

/-- `find_sentences_to_be_merged`: the runs of the crossing-index set. -/
def runs : List Nat → List (List Nat)
  | [] => []
  | x :: xs => runsAux x [x] xs

/-- Comparison for `sorted(offsets.values(), key=lambda x: x[0])`. -/
def spanLe : Span → Span → Prop := fun s t => s.1 ≤ t.1

instance : DecidableRel spanLe := fun s t => Nat.decLe s.1 t.1

instance : IsTotal Span spanLe := ⟨fun s t => Nat.le_total s.1 t.1⟩

instance : IsTrans Span spanLe := ⟨fun _ _ _ h1 h2 => Nat.le_trans h1 h2⟩

/-- `apply_merges_to_sentences_offsets`: each run's first sentence takes
the run's last sentence's end, the rest are dropped, and the remaining
spans are re-enumerated sorted by start. -/
def applyMerges (offsets : List Span) (merges : List (List Nat)) : List Span :=
  let dropIdx := merges.flatMap fun m => m.drop 1
  let updated := offsets.enum.filterMap fun iv =>
    if iv.1 ∈ dropIdx then none
    else
      match merges.find? (fun m => decide (m.headD offsets.length = iv.1)) with
      | some m => some (iv.2.1, (offsets.getD (m.getLastD 0) (0, 0)).2)
      | none => some iv.2
  List.insertionSort spanLe updated

/-- `merge_sentences_with_crossing_annotations`, with explicit fuel (the
Python function recurses; `offsets.length + 1` fuel always suffices, which
is the C8 termination theorem). -/
def merge_sentences_loop (p : Passage) : Nat → List Span → Option (List Span)
  | 0, _ => none
  | fuel + 1, offsets =>
    let merges := runs (crossIdx offsets p)
    if merges.isEmpty then some offsets
    else merge_sentences_loop p fuel (applyMerges offsets merges)

theorem runsAux_flatten (xs : List Nat) : ∀ lastv cur,
    (runsAux lastv cur xs).flatten = cur.reverse ++ xs := by
  induction xs with
  | nil => intro lastv cur; simp [runsAux]
  | cons y ys ih =>
    intro lastv cur
    rw [runsAux]
    split
    · rw [ih]
      simp
    · simp only [List.flatten_cons, ih]
      simp

theorem runs_flatten (l : List Nat) : (runs l).flatten = l := by
  cases l with
  | nil => rfl
  | cons x xs =>
    rw [runs, runsAux_flatten]
    rfl

theorem runsAux_length (xs : List Nat) : ∀ lastv cur,
    (runsAux lastv cur xs).length =
      1 + List.countP (fun uv : Nat × Nat => decide (uv.2 ≠ uv.1 + 1))
        ((lastv :: xs).zip xs) := by
  induction xs with
  | nil => intro lastv cur; simp [runsAux]
  | cons y ys ih =>
    intro lastv cur
    rw [runsAux]
    have hzip : (lastv :: y :: ys).zip (y :: ys) =
        (lastv, y) :: (y :: ys).zip ys := rfl
    rw [hzip]
    split
    · rename_i hy
      rw [ih, List.countP_cons]
      simp [hy]
    · rename_i hy
      simp only [List.length_cons, ih, List.countP_cons]
      have hd : (decide ((lastv, y).2 ≠ (lastv, y).1 + 1)) = true := by
        simpa using hy
      rw [hd, if_pos rfl]
      omega

theorem runsAux_ne_nil (xs : List Nat) : ∀ lastv cur,
    ∀ m ∈ runsAux lastv cur xs, cur ≠ [] → m ≠ [] := by
  induction xs with
  | nil =>
    intro lastv cur m hm hcur
    rw [runsAux, List.mem_singleton] at hm
    subst hm
    simpa using hcur
  | cons y ys ih =>
    intro lastv cur m hm hcur
    rw [runsAux] at hm
    split at hm
    · exact ih y (y :: cur) m hm (by simp)
    · rcases List.mem_cons.mp hm with h | h
      · subst h
        simpa using hcur
      · exact ih y [y] m h (by simp)

theorem runs_ne_nil (l : List Nat) : ∀ m ∈ runs l, m ≠ [] := by
  cases l with
  | nil => simp [runs]
  | cons x xs =>
    intro m hm
    exact runsAux_ne_nil xs x [x] m hm (by simp)

theorem adjacent_pair_of_consecutive_mem (l : List Nat)
    (hs : l.Pairwise (· < ·)) (x : Nat) (hx : x ∈ l) (hx1 : x + 1 ∈ l) :
    (x, x + 1) ∈ l.zip l.tail := by
  induction l with
  | nil => exact absurd hx (List.not_mem_nil x)
  | cons a t ih =>
    obtain ⟨ha, ht⟩ := List.pairwise_cons.mp hs
    rcases List.mem_cons.mp hx with hxa | hxt
    · subst hxa
      have hx1t : x + 1 ∈ t := by
        rcases List.mem_cons.mp hx1 with h | h
        · omega
        · exact h
      cases t with
      | nil => exact absurd hx1t (List.not_mem_nil _)
      | cons b t' =>
        have hb : b = x + 1 := by
          rcases List.mem_cons.mp hx1t with h | h
          · omega
          · have h1 := ha b (List.mem_cons_self b t')
            have h2 := (List.pairwise_cons.mp ht).1 (x + 1) h
            omega
        subst hb
        exact List.mem_cons_self _ _
    · have hx1t : x + 1 ∈ t := by
        rcases List.mem_cons.mp hx1 with h | h
        · have := ha x hxt
          omega
        · exact h
      have := ih ht hxt hx1t
      cases t with
      | nil => exact absurd hxt (List.not_mem_nil _)
      | cons b t' =>
        exact List.mem_cons_of_mem _ this

theorem runs_length_lt (l : List Nat) (hs : l.Pairwise (· < ·))
    (x : Nat) (hx : x ∈ l) (hx1 : x + 1 ∈ l) :
    (runs l).length < l.length := by
  cases l with
  | nil => exact absurd hx (List.not_mem_nil x)
  | cons a xs =>
    rw [runs, runsAux_length]
    have hpair : (x, x + 1) ∈ (a :: xs).zip xs :=
      adjacent_pair_of_consecutive_mem (a :: xs) hs x hx hx1
    have hlt : List.countP (fun uv : Nat × Nat => decide (uv.2 ≠ uv.1 + 1))
        ((a :: xs).zip xs) < ((a :: xs).zip xs).length := by
      rcases Nat.lt_or_ge (List.countP (fun uv : Nat × Nat =>
        decide (uv.2 ≠ uv.1 + 1)) ((a :: xs).zip xs))
        ((a :: xs).zip xs).length with h | h
      · exact h
      · exfalso
        have heq : List.countP (fun uv : Nat × Nat => decide (uv.2 ≠ uv.1 + 1))
            ((a :: xs).zip xs) = ((a :: xs).zip xs).length :=
          Nat.le_antisymm (List.countP_le_length _) h
        have := List.countP_eq_length.mp heq (x, x + 1) hpair
        simp at this
    have hzlen : ((a :: xs).zip xs).length = xs.length := by
      simp [List.length_zip]
    simp only [List.length_cons]
    omega

theorem length_le_flatten_length (gs : List (List Nat))
    (h : ∀ m ∈ gs, m ≠ []) : gs.length ≤ gs.flatten.length := by
  induction gs with
  | nil => simp
  | cons m gt ih =>
    have hm : 1 ≤ m.length :=
      List.length_pos.mpr (h m (List.mem_cons_self m gt))
    have := ih fun x hx => h x (List.mem_cons_of_mem m hx)
    simp only [List.flatten_cons, List.length_append, List.length_cons]
    omega

theorem flatMap_drop1_length (gs : List (List Nat)) (h : ∀ m ∈ gs, m ≠ []) :
    (gs.flatMap fun m => m.drop 1).length = gs.flatten.length - gs.length := by
  induction gs with
  | nil => simp
  | cons m gt ih =>
    have hm : 1 ≤ m.length :=
      List.length_pos.mpr (h m (List.mem_cons_self m gt))
    have iht := ih fun x hx => h x (List.mem_cons_of_mem m hx)
    have hle := length_le_flatten_length gt fun x hx => h x (List.mem_cons_of_mem m hx)
    simp only [List.flatMap_cons, List.length_append, List.flatten_cons,
      List.length_cons, List.length_drop, iht]
    omega

theorem countP_not_add_countP (p : α → Bool) (l : List α) :
    List.countP (fun x => !p x) l + List.countP p l = l.length := by
  induction l with
  | nil => rfl
  | cons x t ih =>
    rw [List.countP_cons, List.countP_cons]
    cases hp : p x <;> simp [hp] <;> omega

theorem length_filterMap_eq_countP (f : α → Option β) (l : List α) :
    (l.filterMap f).length = l.countP fun x => (f x).isSome := by
  induction l with
  | nil => rfl
  | cons x t ih =>
    rw [List.filterMap_cons, List.countP_cons]
    cases hf : f x with
    | none => simp [hf, ih]
    | some y => simp [hf, ih]

theorem crossIdx_sorted (offsets : List Span) (p : Passage) :
    (crossIdx offsets p).Pairwise (· < ·) :=
  (List.pairwise_lt_range _).filter _

theorem crossIdx_mem (offsets : List Span) (p : Passage) (j : Nat) :
    j ∈ crossIdx offsets p ↔
      j < offsets.length ∧
        ((j + 1 < offsets.length ∧ crossingAt offsets p j) ∨
         (1 ≤ j ∧ crossingAt offsets p (j - 1))) := by
  unfold crossIdx
  rw [List.mem_filter, List.mem_range]
  simp

theorem crossIdx_pair (offsets : List Span) (p : Passage) (j : Nat)
    (hj : j ∈ crossIdx offsets p) :
    ∃ x, x ∈ crossIdx offsets p ∧ x + 1 ∈ crossIdx offsets p := by
  obtain ⟨hlt, hcase⟩ := (crossIdx_mem offsets p j).mp hj
  rcases hcase with ⟨hj1, hc⟩ | ⟨hj1, hc⟩
  · refine ⟨j, hj, ?_⟩
    rw [crossIdx_mem]
    exact ⟨hj1, Or.inr ⟨by omega, by simpa using hc⟩⟩
  · refine ⟨j - 1, ?_, ?_⟩
    · rw [crossIdx_mem]
      exact ⟨by omega, Or.inl ⟨by omega, hc⟩⟩
    · have : j - 1 + 1 = j := by omega
      rw [this]
      exact hj

theorem applyMerges_length_lt (offsets : List Span) (p : Passage)
    (hne : crossIdx offsets p ≠ []) :
    (applyMerges offsets (runs (crossIdx offsets p))).length < offsets.length := by
  obtain ⟨j, hj⟩ := List.exists_mem_of_ne_nil _ hne
  obtain ⟨x, hx, hx1⟩ := crossIdx_pair offsets p j hj
  have hruns_lt : (runs (crossIdx offsets p)).length < (crossIdx offsets p).length :=
    runs_length_lt _ (crossIdx_sorted offsets p) x hx hx1
  have hflat : (runs (crossIdx offsets p)).flatten = crossIdx offsets p :=
    runs_flatten _
  have hdropn : ((runs (crossIdx offsets p)).flatMap fun m => m.drop 1).length =
      (crossIdx offsets p).length - (runs (crossIdx offsets p)).length := by
    rw [flatMap_drop1_length _ (runs_ne_nil _), hflat]
  have hdropne : ((runs (crossIdx offsets p)).flatMap fun m => m.drop 1) ≠ [] := by
    intro hnil
    rw [hnil] at hdropn
    simp only [List.length_nil] at hdropn
    omega
  obtain ⟨i0, hi0⟩ := List.exists_mem_of_ne_nil _ hdropne
  have hi0S : i0 ∈ crossIdx offsets p := by
    rw [← hflat]
    obtain ⟨m, hm, hmem⟩ := List.mem_flatMap.mp hi0
    exact List.mem_flatten.mpr ⟨m, hm, (List.drop_sublist 1 m).mem hmem⟩
  have hi0n : i0 < offsets.length := ((crossIdx_mem offsets p i0).mp hi0S).1
  unfold applyMerges
  rw [(List.perm_insertionSort spanLe _).length_eq,
    length_filterMap_eq_countP]
  have hcount : 0 < List.countP
      (fun iv : Nat × Span =>
        decide (iv.1 ∈ (runs (crossIdx offsets p)).flatMap fun m => m.drop 1))
      offsets.enum := by
    refine List.countP_pos_iff.mpr
      ⟨(i0, offsets.getD i0 (0, 0)), ?_, by simpa using hi0⟩
    rw [List.mk_mem_enum_iff_getElem?, List.getElem?_eq_getElem hi0n,
      List.getD_eq_getElem _ _ hi0n]
  have hcongr : ∀ iv ∈ offsets.enum,
      ((if iv.1 ∈ ((runs (crossIdx offsets p)).flatMap fun m => m.drop 1)
          then (none : Option Span)
          else match (runs (crossIdx offsets p)).find?
              (fun m => decide (m.headD offsets.length = iv.1)) with
            | some m => some (iv.2.1, (offsets.getD (m.getLastD 0) (0, 0)).2)
            | none => some iv.2).isSome = true ↔
        (!(decide (iv.1 ∈ (runs (crossIdx offsets p)).flatMap
            fun m => m.drop 1))) = true) := by
    intro iv _
    by_cases hmem : iv.1 ∈ (runs (crossIdx offsets p)).flatMap fun m => m.drop 1
    · rw [if_pos hmem, decide_eq_true hmem]
      simp
    · rw [if_neg hmem, decide_eq_false hmem]
      cases hfind : (runs (crossIdx offsets p)).find?
          (fun m => decide (m.headD offsets.length = iv.1)) with
      | none =>
        simp only [hfind]
        simp
      | some m =>
        simp only [hfind]
        simp
  have hsum := countP_not_add_countP
    (fun iv : Nat × Span =>
      decide (iv.1 ∈ (runs (crossIdx offsets p)).flatMap fun m => m.drop 1))
    offsets.enum
  have hlen : offsets.enum.length = offsets.length := List.enum_length
  rw [List.countP_congr hcongr]
  omega

theorem runs_eq_nil_iff (l : List Nat) : runs l = [] ↔ l = [] := by
  cases l with
  | nil => simp [runs]
  | cons x xs =>
    simp only [runs, List.cons_ne_nil, iff_false]
    intro hnil
    have := runsAux_length xs x [x]
    rw [hnil] at this
    simp only [List.length_nil] at this
    omega

theorem merge_loop_total (p : Passage) : ∀ fuel offsets,
    offsets.length < fuel →
    ∃ R, merge_sentences_loop p fuel offsets = some R ∧ crossIdx R p = [] := by
  intro fuel
  induction fuel with
  | zero => intro offsets h; omega
  | succ f ih =>
    intro offsets h
    rw [merge_sentences_loop]
    by_cases hm : (runs (crossIdx offsets p)).isEmpty
    · refine ⟨offsets, by simp [hm], ?_⟩
      rw [← runs_eq_nil_iff]
      exact List.isEmpty_iff.mp hm
    · have hcne : crossIdx offsets p ≠ [] := by
        intro hnil
        rw [← runs_eq_nil_iff] at hnil
        exact hm (List.isEmpty_iff.mpr hnil)
      have hlt := applyMerges_length_lt offsets p hcne
      have ⟨R, hR, hcross⟩ := ih (applyMerges offsets (runs (crossIdx offsets p)))
        (by omega)
      refine ⟨R, ?_, hcross⟩
      simp only [hm, if_false]
      exact hR

theorem crossIdx_nil_iff (offsets : List Span) (p : Passage) :
    crossIdx offsets p = [] ↔
      ∀ i, i + 1 < offsets.length → ¬ crossingAt offsets p i := by
  constructor
  · intro hnil i hi hc
    have : i ∈ crossIdx offsets p := by
      rw [crossIdx_mem]
      exact ⟨by omega, Or.inl ⟨hi, hc⟩⟩
    rw [hnil] at this
    exact absurd this (List.not_mem_nil i)
  · intro h
    rw [List.eq_nil_iff_forall_not_mem]
    intro j hj
    obtain ⟨hlt, hcase⟩ := (crossIdx_mem offsets p j).mp hj
    rcases hcase with ⟨hj1, hc⟩ | ⟨hj1, hc⟩
    · exact h j hj1 hc
    · refine h (j - 1) (by omega) hc

/-- C8.  The recursive sentence-merging procedure terminates — whenever
there is a crossing annotation, one application of the merges strictly
decreases the number of sentence ranges, so `offsets.length + 1` fuel
always suffices — and in the resulting ranges no annotation spans a
boundary between two adjacent sentences. -/
theorem merge_sentences_with_crossing_annotations_total
    (p : Passage) (offsets : List Span) :
    (crossIdx offsets p ≠ [] →
      (applyMerges offsets (runs (crossIdx offsets p))).length <
        offsets.length) ∧
    ∃ R, merge_sentences_loop p (offsets.length + 1) offsets = some R ∧
      ∀ i, i + 1 < R.length → ¬ crossingAt R p i := by
  refine ⟨fun hne => applyMerges_length_lt offsets p hne, ?_⟩
  obtain ⟨R, hR, hcross⟩ := merge_loop_total p (offsets.length + 1) offsets
    (by omega)
  exact ⟨R, hR, (crossIdx_nil_iff R p).mp hcross⟩

/-- The membership test of `get_annotations_grouped_by_sentence`:
`a.start - passage.offset >= start and a.end - passage.offset <= end`. -/
def sentContains (p : Passage) (se : Span) (a : Ann) : Bool :=
  decide ((se.1 : Int) ≤ (a.start : Int) - (p.offset : Int) ∧
          (a.stop : Int) - (p.offset : Int) ≤ (se.2 : Int))

/-- `get_annotations_grouped_by_sentence`: one annotation list per sentence
range (sorted by start); raise iff the total count differs from the
passage's annotation count. -/
def get_annotations_grouped_by_sentence (offsets : List Span) (p : Passage) :
    Except String (List (List Ann)) :=
  let grouped := (List.insertionSort spanLe offsets).map fun se =>
    p.annotations.filter (sentContains p se)
  if grouped.flatten.length = p.annotations.length then .ok grouped
  else .error "Failed placing annotations in sentences"

def xC4 : Ann := mkAnn 6 9 ['c', 'd', 'e'] "gene" (.strId "1") false 0

def yC4 : Ann := mkAnn 20 25 ['u', 'v', 'w', 'q', 'r'] "gene" (.strId "2") false 1

def pC4 : Passage :=
  { id := 0, offset := 0, text := [], annotations := [xC4, yC4],
    type := "title" }

/-- C4 counterexample.  With the (overlapping) sentence ranges
`(0,10), (5,15)`, annotation `x = [6,9]` is contained in both and
`y = [20,25]` in neither; the total count matches, so the function does
not raise, yet the concatenation `[x, x]` duplicates `x`, loses `y`, and
is not a permutation of `[x, y]`. -/
theorem get_annotations_grouped_by_sentence_cex :
    get_annotations_grouped_by_sentence [(0, 10), (5, 15)] pC4 =
      .ok [[xC4], [xC4]] ∧
    ¬ ([[xC4], [xC4]].flatten).Perm pC4.annotations := by
  constructor
  · rfl
  · intro hp
    have hy : yC4 ∈ ([[xC4], [xC4]].flatten) :=
      hp.mem_iff.mpr (by simp [pC4])
    have heq : yC4 = xC4 := by simpa using hy
    exact absurd heq (by decide)

theorem filter_append_perm_or (l : List Ann) (f g : Ann → Bool)
    (hdisj : ∀ a ∈ l, ¬(f a = true ∧ g a = true)) :
    (l.filter f ++ l.filter g).Perm (l.filter fun a => f a || g a) := by
  induction l with
  | nil => simp
  | cons a t ih =>
    have iht := ih fun x hx => hdisj x (List.mem_cons_of_mem a hx)
    have hda := hdisj a (List.mem_cons_self a t)
    rw [List.filter_cons, List.filter_cons, List.filter_cons]
    cases hf : f a with
    | true =>
      have hg : g a = false := by
        cases hg : g a with
        | true => exact absurd ⟨hf, hg⟩ hda
        | false => rfl
      rw [hg]
      simp only [Bool.true_or, if_pos rfl, if_neg Bool.false_ne_true,
        List.cons_append]
      exact iht.cons a
    | false =>
      cases hg : g a with
      | true =>
        simp only [Bool.false_or, if_pos rfl, if_neg Bool.false_ne_true]
        exact List.perm_middle.trans (iht.cons a)
      | false =>
        simp only [Bool.false_or, if_neg Bool.false_ne_true]
        exact iht

theorem grouped_flatten_perm (p : Passage) (rs : List Span)
    (hdisj : ∀ a ∈ p.annotations,
      (rs.filter fun se => sentContains p se a).length ≤ 1) :
    ((rs.map fun se => p.annotations.filter (sentContains p se)).flatten).Perm
      (p.annotations.filter fun a => rs.any fun se => sentContains p se a) := by
  induction rs with
  | nil => simp
  | cons r rt ih =>
    have hdisj' : ∀ a ∈ p.annotations,
        (rt.filter fun se => sentContains p se a).length ≤ 1 := by
      intro a ha
      have h := hdisj a ha
      rw [List.filter_cons] at h
      split at h
      · simp only [List.length_cons] at h
        omega
      · exact h
    have iht := ih hdisj'
    have hd2 : ∀ a ∈ p.annotations,
        ¬(sentContains p r a = true ∧
          (rt.any fun se => sentContains p se a) = true) := by
      rintro a ha ⟨h1, h2⟩
      have h := hdisj a ha
      rw [List.filter_cons, if_pos h1] at h
      obtain ⟨se, hse, hc⟩ := List.any_eq_true.mp h2
      have hmem : se ∈ rt.filter fun se => sentContains p se a :=
        List.mem_filter.mpr ⟨hse, hc⟩
      have : 1 ≤ (rt.filter fun se => sentContains p se a).length :=
        List.length_pos.mpr (List.ne_nil_of_mem hmem)
      simp only [List.length_cons] at h
      omega
    simp only [List.map_cons, List.flatten_cons]
    have step1 : (p.annotations.filter (sentContains p r) ++
        (rt.map fun se => p.annotations.filter (sentContains p se)).flatten).Perm
        (p.annotations.filter (sentContains p r) ++
          p.annotations.filter fun a => rt.any fun se => sentContains p se a) :=
      iht.append_left _
    have step2 := filter_append_perm_or p.annotations (sentContains p r)
      (fun a => rt.any fun se => sentContains p se a) hd2
    refine (step1.trans step2).trans ?_
    have : (fun a => sentContains p r a || rt.any fun se => sentContains p se a) =
        fun a => (r :: rt).any fun se => sentContains p se a := by
      funext a
      simp [List.any_cons]
    rw [this]

/-- C4 amended.  When `get_annotations_grouped_by_sentence` returns (the
count check passes) *and* no annotation is contained in two sentence
ranges (true in particular for pairwise disjoint ranges), the
concatenation of the per-sentence lists is a permutation of the passage's
annotations.  Without the disjointness premise the count check can pass
while an annotation is duplicated and another lost (the counterexample);
the function itself raises exactly when the total count differs. -/
theorem get_annotations_grouped_by_sentence_amended (offsets : List Span)
    (p : Passage) (gs : List (List Ann))
    (hdisj : ∀ a ∈ p.annotations,
      ((List.insertionSort spanLe offsets).filter
        fun se => sentContains p se a).length ≤ 1)
    (hok : get_annotations_grouped_by_sentence offsets p = .ok gs) :
    gs.flatten.Perm p.annotations := by
  unfold get_annotations_grouped_by_sentence at hok
  simp only [] at hok
  split at hok
  · rename_i hlen
    cases hok
    have hperm := grouped_flatten_perm p (List.insertionSort spanLe offsets) hdisj
    have hlen2 : (p.annotations.filter fun a =>
        (List.insertionSort spanLe offsets).any
          fun se => sentContains p se a).length = p.annotations.length := by
      rw [← hperm.length_eq]
      exact hlen
    have heq : (p.annotations.filter fun a =>
        (List.insertionSort spanLe offsets).any
          fun se => sentContains p se a) = p.annotations :=
      (List.filter_sublist _).eq_of_length hlen2
    rw [heq] at hperm
    exact hperm
  · exact absurd hok (by simp)

def aW4 : Ann := mkAnn 1 3 ['b', 'c'] "gene" (.strId "1") false 0

def bW4 : Ann := mkAnn 7 9 ['h', 'i'] "gene" (.strId "2") false 1

def pW4 : Passage :=
  { id := 0, offset := 0, text := [], annotations := [aW4, bW4],
    type := "title" }

/-- C4 amended witness: disjoint sentence ranges, both annotations placed
exactly once. -/
theorem get_annotations_grouped_by_sentence_amended_witness :
    ([[aW4], [bW4]] : List (List Ann)).flatten.Perm pW4.annotations :=
  get_annotations_grouped_by_sentence_amended [(6, 10), (0, 4)] pW4
    [[aW4], [bW4]] (by decide) (by rfl)

/-! ## C2: `CleanIntraWordMentions` (clean.py).

The model follows the source's data flow; Python mutates annotation
objects in place (`a.text`, offsets), the model threads the updated
annotations through return values instead (the C2 claim is about the
rewritten passage text and the whitespace counter, which never read the
mutated fields).  Python slices here always receive clamped non-negative
indices, `l[i:j] = (l.take j).drop i`. -/

/-- Python `l[i:j]` for non-negative `i`, `j`. -/
def pySliceNat (l : List Char) (i j : Nat) : List Char :=
  (l.take j).drop i

/-- Python `min` over a non-empty list (0 for the empty list, which the
source never passes). -/
def minList : List Nat → Nat
  | [] => 0
  | x :: xs => xs.foldl min x

/-- Python `max` over a non-empty list. -/
def maxList : List Nat → Nat
  | [] => 0
  | x :: xs => xs.foldl max x

/-- Python `min(ga, key=lambda x: x.start)` (first minimum). -/
def minByStart (l : List Ann) : Ann :=
  l.foldl (fun b a => if a.start < b.start then a else b) (l.headD dfltAnn)

/-- Python `max(ga, key=lambda x: x.end)` (first maximum). -/
def maxByStop (l : List Ann) : Ann :=
  l.foldl (fun b a => if b.stop < a.stop then a else b) (l.headD dfltAnn)

/-- `BaseTransformation.is_independent_ann`. -/
def is_independent_ann (grouped_annotations : List Ann) : Prop :=
  grouped_annotations.length = 0 ∨ grouped_annotations.length = 1

instance (ga : List Ann) : Decidable (is_independent_ann ga) := by
  unfold is_independent_ann
  exact inferInstance

/-- `BaseTransformation.get_text_span_multi_ann`: the span's
characters, each tagged with the ids of the annotations claiming it, plus
the span's starting offset (passage-relative). -/
def get_text_span_multi_ann (p : Passage) (anns : List Ann) :
    List (Char × List Nat) × Nat :=
  (anns.foldl
      (fun cs a =>
        cs.mapIdx fun i cv =>
          if a.start - p.offset - minList (anns.map fun x => x.start - p.offset) ≤ i ∧
              i < a.start - p.offset -
                  minList (anns.map fun x => x.start - p.offset) + a.text.length
          then (cv.1, cv.2 ++ [a.id]) else cv)
      ((pySliceNat p.text (minList (anns.map fun x => x.start - p.offset))
          (maxList (anns.map fun x => x.stop - p.offset))).map fun c => (c, [])),
    minList (anns.map fun x => x.start - p.offset))

/-- Python dict assignment `inserts[idx] = v`: replace if present, else
append (insertion order of first occurrence). -/
def insertsUpsert (m : List (Nat × (Char × List Nat))) (k : Nat)
    (v : Char × List Nat) : List (Nat × (Char × List Nat)) :=
  if m.any fun kv => decide (kv.1 = k) then
    m.map fun kv => if kv.1 = k then (k, v) else kv
  else m ++ [(k, v)]

/-- `CleanIntraWordMentions.get_grouped_annotations_inserts`: for each
annotation, a space after `start - 1` when the preceding span character is
alphanumeric, and after `end - 1` when the annotation's last span
character is alphanumeric; the counter increments on every hit even when
the dict entry is overwritten. -/
def get_grouped_annotations_inserts (anns : List Ann)
    (chars : List (Char × List Nat)) (span_offset passage_offset : Nat) :
    List (Nat × (Char × List Nat)) × Nat :=
  anns.foldl
    (fun mw a =>
      let start := a.start - passage_offset - span_offset
      let mw1 :=
        if start ≠ 0 then
          if (chars.getD (start - 1) (' ', [])).1.isAlphanum then
            (insertsUpsert mw.1 (start - 1)
              (' ', (chars.getD (start - 1) (' ', [])).2.filter
                fun i => decide (i ≠ a.id)), mw.2 + 1)
          else mw
        else mw
      if start + a.text.length ≠ chars.length then
        if (chars.getD (start + a.text.length - 1) (' ', [])).1.isAlphanum then
          (insertsUpsert mw1.1 (start + a.text.length - 1)
            (' ', (chars.getD (start + a.text.length - 1) (' ', [])).2.filter
              fun i => decide (i ≠ a.id)), mw1.2 + 1)
        else mw1
      else mw1)
    ([], 0)

/-- `CleanIntraWordMentions.apply_inserts`: after each character whose
index is a key of the dict, the inserted pair follows. -/
def apply_inserts (chars : List (Char × List Nat))
    (inserts : List (Nat × (Char × List Nat))) : List (Char × List Nat) :=
  (chars.mapIdx fun i cv =>
    match inserts.find? fun kv => decide (kv.1 = i) with
    | some kv => [cv, kv.2]
    | none => [cv]).flatten

/-- `CleanIntraWordMentions.clean_grouped_annotations_intraword_mention`:
returns `((span_text, white_spaces_added), annotations-with-rebuilt-text)`. -/
def clean_grouped_annotations_intraword_mention (anns : List Ann)
    (p : Passage) : (List Char × Nat) × List Ann :=
  ((((apply_inserts (get_text_span_multi_ann p anns).1
        (get_grouped_annotations_inserts anns
          (get_text_span_multi_ann p anns).1
          (get_text_span_multi_ann p anns).2 p.offset).1).map
      fun cv => cv.1),
    (get_grouped_annotations_inserts anns
      (get_text_span_multi_ann p anns).1
      (get_text_span_multi_ann p anns).2 p.offset).2),
   anns.map fun a =>
    { a with text := ((apply_inserts (get_text_span_multi_ann p anns).1
        (get_grouped_annotations_inserts anns
          (get_text_span_multi_ann p anns).1
          (get_text_span_multi_ann p anns).2 p.offset).1).filter
          fun cv => decide (a.id ∈ cv.2)).map fun cv => cv.1 })

/-- First index of `pat` in `hay` (`re.search(re.escape(pat), hay)`). -/
def findSub (hay pat : List Char) : Option Nat :=
  (List.range (hay.length + 1)).find? fun i => pat.isPrefixOf (hay.drop i)

/-- `BaseTransformation.remap_offsets_grouped_annotations`: locate each
annotation's (rebuilt) text inside the rewritten span text; failure is a
fatal `RuntimeError`. -/
def remap_offsets_grouped_annotations (anns : List Ann)
    (span_text : List Char) (offset : Nat) : Except String (List Ann) :=
  mapExcept
    (fun a =>
      match findSub span_text a.text with
      | none => .error "Cannot match overlapping/nested annotation in text span"
      | some i =>
        .ok { a with start := i + offset, stop := i + offset + a.text.length })
    anns

/-- The chunk start of one group (`ga[0].start - offset`, or
`min(a.start for a in ga) - offset` for a real cluster). -/
def groupChunkStart (p : Passage) (ga : List Ann) : Nat :=
  if is_independent_ann ga then (ga.headD dfltAnn).start - p.offset
  else minList (ga.map fun a => a.start) - p.offset

/-- The chunk end of one group. -/
def groupChunkEnd (p : Passage) (ga : List Ann) : Nat :=
  if is_independent_ann ga then (ga.headD dfltAnn).stop - p.offset
  else maxList (ga.map fun a => a.stop) - p.offset

/-- Whether a space is prepended before the group's chunk. -/
def groupPrepend (p : Passage) (ga : List Ann) : Bool :=
  if is_independent_ann ga then is_iwm_start (ga.headD dfltAnn) p
  else is_iwm_start (minByStart ga) p

/-- Whether a space is appended after the group's chunk. -/
def groupAppend (p : Passage) (ga : List Ann) : Bool :=
  if is_independent_ann ga then is_iwm_end (ga.headD dfltAnn) p
  else is_iwm_end (maxByStop ga) p

/-- The loop of `clean_passage_intra_word_mentions` over the span groups,
carrying `(chunk_end, text, white_spaces_added)`; after the last group the
remaining passage text is appended. -/
def cleanGo (p : Passage) :
    List (List Ann) → Nat → List Char → Nat → Except String (List Char × Nat)
  | [], chunk_end, text, ws => .ok (text ++ p.text.drop chunk_end, ws)
  | ga :: rest, chunk_end, text, ws =>
    if is_independent_ann ga then
      cleanGo p rest (groupChunkEnd p ga)
        ((if groupAppend p ga then
            ((if groupPrepend p ga then
                (text ++ pySliceNat p.text chunk_end (groupChunkStart p ga)) ++ [' ']
              else text ++ pySliceNat p.text chunk_end (groupChunkStart p ga)) ++
              (ga.headD dfltAnn).text) ++ [' ']
          else
            (if groupPrepend p ga then
                (text ++ pySliceNat p.text chunk_end (groupChunkStart p ga)) ++ [' ']
              else text ++ pySliceNat p.text chunk_end (groupChunkStart p ga)) ++
              (ga.headD dfltAnn).text))
        ((if groupAppend p ga then 1 else 0) +
          ((if groupPrepend p ga then 1 else 0) + ws))
    else
      match remap_offsets_grouped_annotations
          (clean_grouped_annotations_intraword_mention ga p).2
          (clean_grouped_annotations_intraword_mention ga p).1.1
          ((if groupPrepend p ga then
              (text ++ pySliceNat p.text chunk_end (groupChunkStart p ga)) ++ [' ']
            else text ++ pySliceNat p.text chunk_end (groupChunkStart p ga))).length
        with
      | .error e => .error e
      | .ok _ =>
        cleanGo p rest (groupChunkEnd p ga)
          ((if groupAppend p ga then
              ((if groupPrepend p ga then
                  (text ++ pySliceNat p.text chunk_end (groupChunkStart p ga)) ++ [' ']
                else text ++ pySliceNat p.text chunk_end (groupChunkStart p ga)) ++
                (clean_grouped_annotations_intraword_mention ga p).1.1) ++ [' ']
            else
              (if groupPrepend p ga then
                  (text ++ pySliceNat p.text chunk_end (groupChunkStart p ga)) ++ [' ']
                else text ++ pySliceNat p.text chunk_end (groupChunkStart p ga)) ++
                (clean_grouped_annotations_intraword_mention ga p).1.1))
          ((if groupAppend p ga then 1 else 0) +
            ((clean_grouped_annotations_intraword_mention ga p).1.2 +
              ((if groupPrepend p ga then 1 else 0) + ws)))

/-- `CleanIntraWordMentions.clean_passage_intra_word_mentions`: run the
group loop, then check `len(text) == len(passage.text) + white_spaces_added`
and raise a `RuntimeError` otherwise. -/
def clean_passage_intra_word_mentions (eid : String) (p : Passage) :
    Except String Passage :=
  match cleanGo p (group_annotations_by_span p.annotations) 0 [] 0 with
  | .error e => .error e
  | .ok (text, ws) =>
    if text.length ≠ p.text.length + ws then
      .error "iwm: length text differs from original plus white spaces"
    else .ok { p with text := text }

/-- The inserts dict computed for one (non-independent) group. -/
def groupInserts (p : Passage) (ga : List Ann) :
    List (Nat × (Char × List Nat)) :=
  (get_grouped_annotations_inserts ga (get_text_span_multi_ann p ga).1
    (get_text_span_multi_ann p ga).2 p.offset).1

/-- The number of insertion points actually applied to the text for one
group: the prepended/appended spaces plus, for a cluster, the size of its
inserts dict (one applied space per distinct index). -/
def appliedGroup (p : Passage) (ga : List Ann) : Nat :=
  (if groupPrepend p ga then 1 else 0) + (if groupAppend p ga then 1 else 0) +
    (if is_independent_ann ga then 0 else (groupInserts p ga).length)

/-- The total number of insertion points actually applied to a passage. -/
def appliedInserts (p : Passage) : Nat :=
  ((group_annotations_by_span p.annotations).map fun ga =>
    appliedGroup p ga).sum

theorem foldl_min_le_acc (xs : List Nat) : ∀ acc, xs.foldl min acc ≤ acc := by
  induction xs with
  | nil => intro acc; exact Nat.le_refl acc
  | cons y ys ih =>
    intro acc
    exact Nat.le_trans (ih (min acc y)) (Nat.min_le_left acc y)

theorem foldl_min_le_mem (xs : List Nat) : ∀ acc x, x ∈ xs →
    xs.foldl min acc ≤ x := by
  induction xs with
  | nil => intro acc x hx; exact absurd hx (List.not_mem_nil x)
  | cons y ys ih =>
    intro acc x hx
    rcases List.mem_cons.mp hx with h | h
    · subst h
      exact Nat.le_trans (foldl_min_le_acc ys (min acc x)) (Nat.min_le_right acc x)
    · exact ih (min acc y) x h

theorem minList_le (l : List Nat) (x : Nat) (hx : x ∈ l) : minList l ≤ x := by
  cases l with
  | nil => exact absurd hx (List.not_mem_nil x)
  | cons y ys =>
    rcases List.mem_cons.mp hx with h | h
    · subst h
      exact foldl_min_le_acc ys x
    · exact foldl_min_le_mem ys y x h

theorem acc_le_foldl_max (xs : List Nat) : ∀ acc, acc ≤ xs.foldl max acc := by
  induction xs with
  | nil => intro acc; exact Nat.le_refl acc
  | cons y ys ih =>
    intro acc
    exact Nat.le_trans (Nat.le_max_left acc y) (ih (max acc y))

theorem mem_le_foldl_max (xs : List Nat) : ∀ acc x, x ∈ xs →
    x ≤ xs.foldl max acc := by
  induction xs with
  | nil => intro acc x hx; exact absurd hx (List.not_mem_nil x)
  | cons y ys ih =>
    intro acc x hx
    rcases List.mem_cons.mp hx with h | h
    · subst h
      exact Nat.le_trans (Nat.le_max_right acc x) (acc_le_foldl_max ys (max acc x))
    · exact ih (max acc y) x h

theorem le_maxList (l : List Nat) (x : Nat) (hx : x ∈ l) : x ≤ maxList l := by
  cases l with
  | nil => exact absurd hx (List.not_mem_nil x)
  | cons y ys =>
    rcases List.mem_cons.mp hx with h | h
    · subst h
      exact acc_le_foldl_max ys x
    · exact mem_le_foldl_max ys y x h

theorem foldl_max_le (xs : List Nat) : ∀ acc c, acc ≤ c → (∀ x ∈ xs, x ≤ c) →
    xs.foldl max acc ≤ c := by
  induction xs with
  | nil => intro acc c hacc _; exact hacc
  | cons y ys ih =>
    intro acc c hacc hall
    refine ih (max acc y) c ?_ fun x hx => hall x (List.mem_cons_of_mem y hx)
    exact Nat.max_le.mpr ⟨hacc, hall y (List.mem_cons_self y ys)⟩

theorem maxList_le (l : List Nat) (c : Nat) (h : ∀ x ∈ l, x ≤ c) :
    maxList l ≤ c := by
  cases l with
  | nil => exact Nat.zero_le c
  | cons y ys =>
    exact foldl_max_le ys y c (h y (List.mem_cons_self y ys))
      fun x hx => h x (List.mem_cons_of_mem y hx)

theorem foldl_min_sub (c : Nat) (xs : List Nat) : ∀ acc,
    (xs.map fun x => x - c).foldl min (acc - c) = xs.foldl min acc - c := by
  induction xs with
  | nil => intro acc; rfl
  | cons y ys ih =>
    intro acc
    simp only [List.map_cons, List.foldl_cons]
    rw [Nat.sub_min_sub_right, ih]

theorem minList_map_sub (l : List Nat) (c : Nat) :
    minList (l.map fun x => x - c) = minList l - c := by
  cases l with
  | nil => simp [minList]
  | cons x xs =>
    simp only [minList, List.map_cons]
    exact foldl_min_sub c xs x

theorem foldl_max_sub (c : Nat) (xs : List Nat) : ∀ acc,
    (xs.map fun x => x - c).foldl max (acc - c) = xs.foldl max acc - c := by
  induction xs with
  | nil => intro acc; rfl
  | cons y ys ih =>
    intro acc
    simp only [List.map_cons, List.foldl_cons]
    rw [Nat.sub_max_sub_right, ih]

theorem maxList_map_sub (l : List Nat) (c : Nat) :
    maxList (l.map fun x => x - c) = maxList l - c := by
  cases l with
  | nil => simp [maxList]
  | cons x xs =>
    simp only [maxList, List.map_cons]
    exact foldl_max_sub c xs x

theorem spanChars_length (p : Passage) (anns : List Ann) :
    (get_text_span_multi_ann p anns).1.length =
      min (maxList (anns.map fun x => x.stop - p.offset)) p.text.length -
        minList (anns.map fun x => x.start - p.offset) := by
  unfold get_text_span_multi_ann
  have hfold : ∀ (l : List Ann) (cs : List (Char × List Nat)),
      (l.foldl (fun cs a =>
        cs.mapIdx fun i cv =>
          if a.start - p.offset - minList (anns.map fun x => x.start - p.offset) ≤ i ∧
              i < a.start - p.offset -
                  minList (anns.map fun x => x.start - p.offset) + a.text.length
          then (cv.1, cv.2 ++ [a.id]) else cv) cs).length = cs.length := by
    intro l
    induction l with
    | nil => intro cs; rfl
    | cons a t ih =>
      intro cs
      rw [List.foldl_cons, ih, List.length_mapIdx]
  rw [hfold]
  simp only [List.length_map, pySliceNat, List.length_drop, List.length_take]

theorem insertsUpsert_keys (m : List (Nat × (Char × List Nat))) (k : Nat)
    (v : Char × List Nat) (hnd : (m.map Prod.fst).Nodup) :
    ((insertsUpsert m k v).map Prod.fst).Nodup ∧
    (∀ u ∈ (insertsUpsert m k v).map Prod.fst,
      u ∈ m.map Prod.fst ∨ u = k) ∧
    ((insertsUpsert m k v).length = m.length ∨
      (insertsUpsert m k v).length = m.length + 1) := by
  unfold insertsUpsert
  split
  · have hkeys : (m.map fun kv => if kv.1 = k then (k, v) else kv).map Prod.fst =
        m.map Prod.fst := by
      rw [List.map_map]
      refine List.map_congr_left ?_
      intro kv _
      by_cases hkv : kv.1 = k
      · simp [hkv]
      · simp [hkv]
    rw [hkeys]
    exact ⟨hnd, fun u hu => Or.inl hu, Or.inl (by simp)⟩
  · rename_i hany
    simp only [List.any_eq_true, decide_eq_true_eq, not_exists] at hany
    push_neg at hany
    have hknot : k ∉ m.map Prod.fst := by
      intro hk
      obtain ⟨kv, hkv, hfst⟩ := List.mem_map.mp hk
      exact hany kv hkv hfst
    constructor
    · rw [List.map_append]
      simp only [List.map_cons, List.map_nil]
      rw [List.nodup_append]
      refine ⟨hnd, List.nodup_singleton k, ?_⟩
      intro u hu hu2
      rw [List.mem_singleton] at hu2
      subst hu2
      exact hknot hu
    · constructor
      · intro u hu
        rw [List.map_append, List.mem_append] at hu
        rcases hu with h | h
        · exact Or.inl h
        · simp only [List.map_cons, List.map_nil, List.mem_singleton] at h
          exact Or.inr h
      · right
        simp

/-- A dict whose keys are distinct indices into `chars`. -/
def goodInserts (chars : List (Char × List Nat))
    (m : List (Nat × (Char × List Nat))) : Prop :=
  (m.map Prod.fst).Nodup ∧ ∀ k ∈ m.map Prod.fst, k < chars.length

theorem goodInserts_upsert {chars : List (Char × List Nat)}
    {m : List (Nat × (Char × List Nat))} (idx : Nat) (v : Char × List Nat)
    (hg : goodInserts chars m) (hidx : idx < chars.length) :
    goodInserts chars (insertsUpsert m idx v) := by
  obtain ⟨h1, h2, _⟩ := insertsUpsert_keys m idx v hg.1
  refine ⟨h1, fun k hk => ?_⟩
  rcases h2 k hk with h | h
  · exact hg.2 k h
  · omega

theorem goodInserts_guarded_upsert {chars : List (Char × List Nat)}
    {m : List (Nat × (Char × List Nat))} (idx : Nat) (v : Char × List Nat)
    (hg : goodInserts chars m)
    (halnum : (chars.getD idx (' ', [])).1.isAlphanum = true) :
    goodInserts chars (insertsUpsert m idx v) := by
  refine goodInserts_upsert idx v hg ?_
  by_contra hge
  push_neg at hge
  rw [List.getD_eq_default _ _ hge] at halnum
  simp at halnum

theorem get_grouped_annotations_inserts_keys (chars : List (Char × List Nat))
    (span_offset passage_offset : Nat) (anns : List Ann) :
    goodInserts chars
      (get_grouped_annotations_inserts anns chars span_offset
        passage_offset).1 := by
  unfold get_grouped_annotations_inserts
  suffices h : ∀ (l : List Ann) (mw : List (Nat × (Char × List Nat)) × Nat),
      goodInserts chars mw.1 →
      goodInserts chars
        ((l.foldl (fun mw a =>
          let start := a.start - passage_offset - span_offset
          let mw1 :=
            if start ≠ 0 then
              if (chars.getD (start - 1) (' ', [])).1.isAlphanum then
                (insertsUpsert mw.1 (start - 1)
                  (' ', (chars.getD (start - 1) (' ', [])).2.filter
                    fun i => decide (i ≠ a.id)), mw.2 + 1)
              else mw
            else mw
          if start + a.text.length ≠ chars.length then
            if (chars.getD (start + a.text.length - 1) (' ', [])).1.isAlphanum then
              (insertsUpsert mw1.1 (start + a.text.length - 1)
                (' ', (chars.getD (start + a.text.length - 1) (' ', [])).2.filter
                  fun i => decide (i ≠ a.id)), mw1.2 + 1)
            else mw1
          else mw1) mw).1) by
    exact h anns ([], 0) ⟨by simp, by simp⟩
  intro l
  induction l with
  | nil => intro mw h1; exact h1
  | cons a t ih =>
    intro mw h1
    rw [List.foldl_cons]
    refine ih _ ?_
    simp only []
    have hstage1 : goodInserts chars
        (if a.start - passage_offset - span_offset ≠ 0 then
          if (chars.getD (a.start - passage_offset - span_offset - 1)
              (' ', [])).1.isAlphanum then
            (insertsUpsert mw.1 (a.start - passage_offset - span_offset - 1)
              (' ', (chars.getD (a.start - passage_offset - span_offset - 1)
                (' ', [])).2.filter fun i => decide (i ≠ a.id)), mw.2 + 1)
          else mw
        else mw).1 := by
      split
      · split
        · rename_i halnum
          exact goodInserts_guarded_upsert _ _ h1 halnum
        · exact h1
      · exact h1
    split
    · split
      · rename_i halnum
        exact goodInserts_guarded_upsert _ _ hstage1 halnum
      · exact hstage1
    · exact hstage1

theorem acc_le_foldl_min (xs : List Nat) : ∀ acc c, c ≤ acc →
    (∀ x ∈ xs, c ≤ x) → c ≤ xs.foldl min acc := by
  induction xs with
  | nil => intro acc c hc _; exact hc
  | cons y ys ih =>
    intro acc c hc hall
    refine ih (min acc y) c (Nat.le_min.mpr
      ⟨hc, hall y (List.mem_cons_self y ys)⟩)
      fun x hx => hall x (List.mem_cons_of_mem y hx)

theorem le_minList (l : List Nat) (c : Nat) (hl : l ≠ [])
    (h : ∀ x ∈ l, c ≤ x) : c ≤ minList l := by
  cases l with
  | nil => exact absurd rfl hl
  | cons y ys =>
    exact acc_le_foldl_min ys y c (h y (List.mem_cons_self y ys))
      fun x hx => h x (List.mem_cons_of_mem y hx)

theorem headD_mem {l : List Ann} (hl : l ≠ []) : l.headD dfltAnn ∈ l := by
  cases l with
  | nil => exact absurd rfl hl
  | cons a t => exact List.mem_cons_self a t

theorem flatten_map_insert_length (m : List (Nat × (Char × List Nat))) :
    ∀ e : List (Nat × (Char × List Nat)),
    ((e.map fun iv =>
      match m.find? fun kv => decide (kv.1 = iv.1) with
      | some kv => [iv.2, kv.2]
      | none => [iv.2]).flatten).length =
    e.length + List.countP
      (fun iv => (m.find? fun kv => decide (kv.1 = iv.1)).isSome) e := by
  intro e
  induction e with
  | nil => rfl
  | cons iv t ih =>
    simp only [List.map_cons, List.flatten_cons, List.length_append, ih,
      List.countP_cons, List.length_cons]
    cases hf : m.find? fun kv => decide (kv.1 = iv.1) with
    | none => simp [hf]; omega
    | some kv => simp [hf]; omega

theorem countP_mem_range_eq_length (keys : List Nat) (n : Nat)
    (hnd : keys.Nodup) (hbd : ∀ k ∈ keys, k < n) :
    List.countP (fun i => decide (i ∈ keys)) (List.range n) = keys.length := by
  rw [List.countP_eq_length_filter]
  refine List.Perm.length_eq ?_
  refine (List.perm_ext_iff_of_nodup ((List.nodup_range n).filter _) hnd).mpr ?_
  intro x
  rw [List.mem_filter, List.mem_range]
  simp only [decide_eq_true_eq]
  constructor
  · exact fun h => h.2
  · exact fun h => ⟨hbd x h, h⟩

theorem apply_inserts_length (chars : List (Char × List Nat))
    (m : List (Nat × (Char × List Nat))) (hg : goodInserts chars m) :
    (apply_inserts chars m).length = chars.length + m.length := by
  unfold apply_inserts
  rw [List.mapIdx_eq_enum_map]
  have huncurry : (Function.uncurry fun i cv =>
      match m.find? fun kv => decide (kv.1 = i) with
      | some kv => [cv, kv.2]
      | none => [cv]) = fun iv : Nat × (Char × List Nat) =>
      match m.find? fun kv => decide (kv.1 = iv.1) with
      | some kv => [iv.2, kv.2]
      | none => [iv.2] := by
    funext iv
    rfl
  rw [huncurry, flatten_map_insert_length, List.enum_length]
  have hcongr : ∀ iv ∈ chars.enum,
      ((m.find? fun kv => decide (kv.1 = iv.1)).isSome = true ↔
        (decide (iv.1 ∈ m.map Prod.fst)) = true) := by
    intro iv _
    rw [List.find?_isSome]
    simp only [decide_eq_true_eq]
    constructor
    · rintro ⟨kv, hkv, hk⟩
      exact List.mem_map.mpr ⟨kv, hkv, hk⟩
    · intro h
      obtain ⟨kv, hkv, hk⟩ := List.mem_map.mp h
      exact ⟨kv, hkv, hk⟩
  rw [List.countP_congr hcongr]
  have : List.countP (fun iv : Nat × (Char × List Nat) =>
      decide (iv.1 ∈ m.map Prod.fst)) chars.enum =
      List.countP (fun i => decide (i ∈ m.map Prod.fst))
        (chars.enum.map Prod.fst) := by
    rw [List.countP_map]
    rfl
  rw [this, List.enum_map_fst, countP_mem_range_eq_length _ _ hg.1 hg.2,
    List.length_map]

theorem clean_grouped_span_text_length (ga : List Ann) (p : Passage) :
    (clean_grouped_annotations_intraword_mention ga p).1.1.length =
      (get_text_span_multi_ann p ga).1.length +
        (groupInserts p ga).length := by
  unfold clean_grouped_annotations_intraword_mention groupInserts
  rw [List.length_map]
  exact apply_inserts_length _ _
    (get_grouped_annotations_inserts_keys _ _ _ _)

theorem group_facts (p : Passage) (ga : List Ann) (hga : ga ≠ [])
    (hmem : ∀ a ∈ ga, a ∈ p.annotations)
    (W1 : ∀ a ∈ p.annotations, p.offset ≤ a.start)
    (W2 : ∀ a ∈ p.annotations, a.start < a.stop)
    (W3 : ∀ a ∈ p.annotations, a.stop ≤ p.offset + p.text.length)
    (W4 : ∀ a ∈ p.annotations, a.text.length = a.stop - a.start) :
    groupChunkStart p ga ≤ groupChunkEnd p ga ∧
    groupChunkEnd p ga ≤ p.text.length ∧
    (is_independent_ann ga →
      (ga.headD dfltAnn).text.length =
        groupChunkEnd p ga - groupChunkStart p ga) ∧
    (¬ is_independent_ann ga →
      (get_text_span_multi_ann p ga).1.length =
        groupChunkEnd p ga - groupChunkStart p ga) ∧
    (∀ c : Nat, (∀ a ∈ ga, c + p.offset ≤ a.start) →
      c ≤ groupChunkStart p ga) ∧
    (∀ y : Ann, (∀ x ∈ ga, x.stop ≤ y.start) →
      groupChunkEnd p ga + p.offset ≤ y.start) := by
  have ha0 : ga.headD dfltAnn ∈ ga := headD_mem hga
  have ha0p := hmem _ ha0
  have h1 := W1 _ ha0p
  have h2 := W2 _ ha0p
  have h3 := W3 _ ha0p
  have h4 := W4 _ ha0p
  have hmapne : ga.map (fun a => a.start) ≠ [] := by
    cases ga with
    | nil => exact absurd rfl hga
    | cons x t => simp
  have hminle : minList (ga.map fun a => a.start) ≤ (ga.headD dfltAnn).start :=
    minList_le _ _ (List.mem_map.mpr ⟨_, ha0, rfl⟩)
  have hmaxge : (ga.headD dfltAnn).stop ≤ maxList (ga.map fun a => a.stop) :=
    le_maxList _ _ (List.mem_map.mpr ⟨_, ha0, rfl⟩)
  have hminge : p.offset ≤ minList (ga.map fun a => a.start) :=
    le_minList _ _ hmapne (by
      intro x hx
      obtain ⟨a, ha, rfl⟩ := List.mem_map.mp hx
      exact W1 _ (hmem _ ha))
  have hmaxle : maxList (ga.map fun a => a.stop) ≤ p.offset + p.text.length :=
    maxList_le _ _ (by
      intro x hx
      obtain ⟨a, ha, rfl⟩ := List.mem_map.mp hx
      exact W3 _ (hmem _ ha))
  by_cases hind : is_independent_ann ga
  · simp only [groupChunkStart, groupChunkEnd, if_pos hind]
    refine ⟨by omega, by omega, fun _ => by omega, fun h => absurd hind h,
      ?_, ?_⟩
    · intro c hc
      have := hc _ ha0
      omega
    · intro y hy
      have := hy _ ha0
      omega
  · simp only [groupChunkStart, groupChunkEnd, if_neg hind]
    refine ⟨by omega, by omega, fun h => absurd h hind, ?_, ?_, ?_⟩
    · intro _
      rw [spanChars_length]
      have hmapstop : (ga.map fun x => x.stop - p.offset) =
          (ga.map fun a => a.stop).map fun s => s - p.offset := by
        rw [List.map_map]
        rfl
      have hmapstart : (ga.map fun x => x.start - p.offset) =
          (ga.map fun a => a.start).map fun s => s - p.offset := by
        rw [List.map_map]
        rfl
      rw [hmapstop, hmapstart, maxList_map_sub, minList_map_sub]
      omega
    · intro c hc
      have : c + p.offset ≤ minList (ga.map fun a => a.start) := by
        refine le_minList _ _ hmapne ?_
        intro x hx
        obtain ⟨a, ha, rfl⟩ := List.mem_map.mp hx
        exact hc _ ha
      omega
    · intro y hy
      have : maxList (ga.map fun a => a.stop) ≤ y.start := by
        refine maxList_le _ _ ?_
        intro x hx
        obtain ⟨a, ha, rfl⟩ := List.mem_map.mp hx
        exact hy _ ha
      omega

theorem cleanGo_length (p : Passage)
    (W1 : ∀ a ∈ p.annotations, p.offset ≤ a.start)
    (W2 : ∀ a ∈ p.annotations, a.start < a.stop)
    (W3 : ∀ a ∈ p.annotations, a.stop ≤ p.offset + p.text.length)
    (W4 : ∀ a ∈ p.annotations, a.text.length = a.stop - a.start) :
    ∀ gs : List (List Ann), (∀ ga ∈ gs, ga ≠ []) →
      (∀ ga ∈ gs, ∀ a ∈ ga, a ∈ p.annotations) →
      gs.Pairwise gapped →
      ∀ (chunk_end : Nat) (text : List Char) (ws : Nat),
      (∀ a ∈ gs.headD [], chunk_end + p.offset ≤ a.start) →
      chunk_end ≤ p.text.length →
      ∀ t w, cleanGo p gs chunk_end text ws = .ok (t, w) →
        t.length = text.length + (p.text.length - chunk_end) +
          (gs.map fun ga => appliedGroup p ga).sum := by
  intro gs
  induction gs with
  | nil =>
    intro _ _ _ chunk_end text ws _ hcel t w hok
    rw [cleanGo] at hok
    cases hok
    simp only [List.length_append, List.length_drop, List.map_nil,
      List.sum_nil]
    omega
  | cons ga rest ih =>
    intro hne hmem hgap chunk_end text ws hce hcel t w hok
    have hgane : ga ≠ [] := hne ga (List.mem_cons_self ga rest)
    have hgamem : ∀ a ∈ ga, a ∈ p.annotations :=
      hmem ga (List.mem_cons_self ga rest)
    obtain ⟨f1, f2, find, fgrp, fstart, fnext⟩ :=
      group_facts p ga hgane hgamem W1 W2 W3 W4
    have hce1 : chunk_end ≤ groupChunkStart p ga := by
      refine fstart chunk_end ?_
      intro a ha
      exact hce a (by simpa using ha)
    have hslice : (pySliceNat p.text chunk_end (groupChunkStart p ga)).length =
        groupChunkStart p ga - chunk_end := by
      simp only [pySliceNat, List.length_drop, List.length_take]
      omega
    have hce' : ∀ a ∈ rest.headD [], groupChunkEnd p ga + p.offset ≤ a.start := by
      cases rest with
      | nil => simp
      | cons gb rbt =>
        intro a ha
        simp only [List.headD_cons] at ha
        have hgapped : gapped ga gb :=
          (List.pairwise_cons.mp hgap).1 gb (List.mem_cons_self gb rbt)
        exact fnext a fun x hx => hgapped x hx a ha
    have hrest_ne : ∀ gb ∈ rest, gb ≠ [] :=
      fun gb hgb => hne gb (List.mem_cons_of_mem ga hgb)
    have hrest_mem : ∀ gb ∈ rest, ∀ a ∈ gb, a ∈ p.annotations :=
      fun gb hgb => hmem gb (List.mem_cons_of_mem ga hgb)
    have hrest_gap : rest.Pairwise gapped := (List.pairwise_cons.mp hgap).2
    rw [cleanGo] at hok
    by_cases hind : is_independent_ann ga
    · rw [if_pos hind] at hok
      have hlen := ih hrest_ne hrest_mem hrest_gap (groupChunkEnd p ga)
        _ _ hce' f2 t w hok
      have happlied : appliedGroup p ga =
          (if groupPrepend p ga then 1 else 0) +
          (if groupAppend p ga then 1 else 0) := by
        simp [appliedGroup, hind]
      rw [hlen]
      cases hpre : groupPrepend p ga <;> cases happ : groupAppend p ga <;>
        simp only [hpre, happ, if_pos rfl, if_neg Bool.false_ne_true,
          Bool.false_eq_true, if_false, if_true, List.length_append,
          List.length_cons, List.length_nil, List.map_cons, List.sum_cons,
          happlied, hslice] <;>
        · have := find hind
          omega
    · rw [if_neg hind] at hok
      have hcontent := fgrp hind
      have hspan := clean_grouped_span_text_length ga p
      cases hre : remap_offsets_grouped_annotations
          (clean_grouped_annotations_intraword_mention ga p).2
          (clean_grouped_annotations_intraword_mention ga p).1.1
          ((if groupPrepend p ga then
              (text ++ pySliceNat p.text chunk_end (groupChunkStart p ga)) ++ [' ']
            else text ++ pySliceNat p.text chunk_end
              (groupChunkStart p ga))).length with
      | error e =>
        rw [hre] at hok
        exact absurd hok (by simp)
      | ok anns' =>
        rw [hre] at hok
        have hlen := ih hrest_ne hrest_mem hrest_gap (groupChunkEnd p ga)
          _ _ hce' f2 t w hok
        have happlied : appliedGroup p ga =
            (if groupPrepend p ga then 1 else 0) +
            (if groupAppend p ga then 1 else 0) +
            (groupInserts p ga).length := by
          simp [appliedGroup, hind]
        rw [hlen]
        cases hpre : groupPrepend p ga <;> cases happ : groupAppend p ga <;>
          simp only [hpre, happ, if_pos rfl, if_neg Bool.false_ne_true,
            Bool.false_eq_true, if_false, if_true, List.length_append,
            List.length_cons, List.length_nil, List.map_cons, List.sum_cons,
            happlied, hslice, hspan, hcontent] <;>
          omega

theorem groupGo_ne (rest : List Ann) : ∀ bucket acc,
    bucket ≠ [] → (∀ B ∈ acc, B ≠ []) →
    ∀ B ∈ groupGo bucket acc rest, B ≠ [] := by
  induction rest with
  | nil =>
    intro bucket acc hb hacc B hB
    rw [groupGo] at hB
    rcases List.mem_append.mp hB with h | h
    · exact hacc B h
    · rw [List.mem_singleton] at h
      subst h
      exact hb
  | cons a rest ih =>
    intro bucket acc hb hacc B hB
    rw [groupGo] at hB
    split at hB
    · exact ih (bucket ++ [a]) acc (by simp) hacc B hB
    · refine ih [a] (acc ++ [bucket]) (by simp) ?_ B hB
      intro B' hB'
      rcases List.mem_append.mp hB' with h | h
      · exact hacc B' h
      · rw [List.mem_singleton] at h
        subst h
        exact hb

theorem groups_ne (l : List Ann) :
    ∀ ga ∈ group_annotations_by_span l, ga ≠ [] := by
  unfold group_annotations_by_span
  rcases hs : sortAnns l with _ | ⟨a, rest⟩
  · simp
  · exact groupGo_ne rest [a] [] (by simp) (by simp)

theorem groups_mem (l : List Ann) :
    ∀ ga ∈ group_annotations_by_span l, ∀ a ∈ ga, a ∈ l := by
  intro ga hga a ha
  have : a ∈ (group_annotations_by_span l).flatten :=
    List.mem_flatten.mpr ⟨ga, hga, ha⟩
  rw [group_flatten] at this
  exact (sortAnns_perm l).mem_iff.mp this

/-- C2.  For a well-formed passage (every annotation inside the passage,
non-empty, its text of the span's length), whenever
`clean_passage_intra_word_mentions` returns a rewritten passage, the
rewritten text's length equals the original length plus the whitespace
counter accumulated by the pass, and that counter equals the number of
insertion points actually applied to the text (`appliedInserts`); whenever
the length equality fails the function raises a `RuntimeError` instead of
returning. -/
theorem clean_passage_length_invariant (eid : String) (p : Passage)
    (W1 : ∀ a ∈ p.annotations, p.offset ≤ a.start)
    (W2 : ∀ a ∈ p.annotations, a.start < a.stop)
    (W3 : ∀ a ∈ p.annotations, a.stop ≤ p.offset + p.text.length)
    (W4 : ∀ a ∈ p.annotations, a.text.length = a.stop - a.start) :
    (∀ p', clean_passage_intra_word_mentions eid p = .ok p' →
      ∃ ws, cleanGo p (group_annotations_by_span p.annotations) 0 [] 0 =
          .ok (p'.text, ws) ∧
        p'.text.length = p.text.length + ws ∧ ws = appliedInserts p) ∧
    (∀ t ws, cleanGo p (group_annotations_by_span p.annotations) 0 [] 0 =
        .ok (t, ws) → t.length ≠ p.text.length + ws →
      clean_passage_intra_word_mentions eid p =
        .error "iwm: length text differs from original plus white spaces") := by
  have haccount : ∀ t ws,
      cleanGo p (group_annotations_by_span p.annotations) 0 [] 0 =
        .ok (t, ws) → t.length = p.text.length + appliedInserts p := by
    intro t ws hok
    have hce : ∀ a ∈ (group_annotations_by_span p.annotations).headD [],
        0 + p.offset ≤ a.start := by
      cases hgs : group_annotations_by_span p.annotations with
      | nil => simp
      | cons g gt =>
        intro a ha
        simp only [List.headD_cons] at ha
        have : a ∈ p.annotations :=
          groups_mem p.annotations g (hgs ▸ List.mem_cons_self g gt) a ha
        have := W1 a this
        omega
    have := cleanGo_length p W1 W2 W3 W4
      (group_annotations_by_span p.annotations)
      (groups_ne p.annotations) (groups_mem p.annotations)
      (group_pairwise_gapped p.annotations W2)
      0 [] 0 hce (Nat.zero_le _) t ws hok
    simpa [appliedInserts] using this
  constructor
  · intro p' hok
    unfold clean_passage_intra_word_mentions at hok
    cases hgo : cleanGo p (group_annotations_by_span p.annotations) 0 [] 0 with
    | error e =>
      rw [hgo] at hok
      exact absurd hok (by simp)
    | ok tw =>
      rw [hgo] at hok
      obtain ⟨t, ws⟩ := tw
      simp only [] at hok
      split at hok
      · exact absurd hok (by simp)
      · rename_i hcheck
        push_neg at hcheck
        cases hok
        refine ⟨ws, rfl, hcheck, ?_⟩
        have := haccount t ws hgo
        omega
  · intro t ws hok hne
    unfold clean_passage_intra_word_mentions
    rw [hok]
    simp only []
    rw [if_pos hne]

def pW2 : Passage :=
  { id := 0, offset := 0, text := "IL-6alpha is studied".toList,
    annotations := [mkAnn 0 4 "IL-6".toList "gene" (.strId "3569") false 0],
    type := "title" }

/-- C2 witness: the spec's own scenario — `"IL-6alpha is studied"` with
annotation `IL-6` at `[0, 4)` becomes `"IL-6 alpha is studied"`, one space
inserted and counted. -/
theorem clean_passage_length_invariant_witness :
    ∃ ws, cleanGo pW2 (group_annotations_by_span pW2.annotations) 0 [] 0 =
        .ok (({ pW2 with text := "IL-6 alpha is studied".toList } :
          Passage).text, ws) ∧
      ({ pW2 with text := "IL-6 alpha is studied".toList } :
          Passage).text.length = pW2.text.length + ws ∧
      ws = appliedInserts pW2 :=
  (clean_passage_length_invariant "x" pW2 (by decide) (by decide) (by decide)
    (by decide)).1 { pW2 with text := "IL-6 alpha is studied".toList } (by rfl)

/-! ## C7: `handle_error` drop policy -/

/-- C7.  Under `allow_drop` a transformation error yields an `Example` with
the same id and no passages (hence `is_empty`); otherwise it raises a
`RuntimeError` carrying the message. -/
theorem handle_error_policy (eid msg : String) :
    handle_error true eid msg = .ok { id := eid, passages := [] } ∧
    ({ id := eid, passages := [] } : Example).is_empty = true ∧
    handle_error false eid msg = .error msg := by
  refine ⟨rfl, ?_, rfl⟩
  simp [Example.is_empty]

end Belb
